import Mathlib

/-!
# Flora price oracle — verification of the consensus core

Shallow embedding of the flora-price-oracle TypeScript sources and proofs
about them.  The embedding covers:

* the canonicalizer (`src/lib/canonicalize.ts`),
* the proof builder (`src/petal.ts`, `buildProof`, `runEpoch`, `executeEpoch`),
* the aggregator (`src/consumer/consensus.ts`, `aggregateConsensus` —
  the group-by-state-hash variant actually imported by
  `src/consumer/server.ts`),
* account-id ordering and leader election (`src/consumer/leader.ts`),
* the consumer HTTP intake and state (`src/consumer/server.ts`).

Modelling conventions, fixed once here:

* JavaScript numbers are modelled as rationals (`ℚ`) extended with the
  three non-finite values (`JNum`).  IEEE-754 double rounding artifacts
  are outside the embedding.
* SHA-384 (`src/lib/hash.ts` wraps `node:crypto`) is an external
  primitive; every definition that hashes takes the digest function as an
  explicit parameter `h : String → String`.
* `Array.prototype.sort` (stable since ES2019) is modelled by the stable
  insertion sort `sortLe`; `Map` and plain objects are modelled as
  insertion-ordered association lists.
* `Date#toISOString` is modelled by an injective stand-in; no claim
  depends on the calendar rendering.
-/

set_option linter.unusedVariables false

namespace Flora

/-- A JavaScript number: a finite rational or one of `NaN`, `Infinity`,
`-Infinity`. -/
inductive JNum where
  | fin (q : ℚ)
  | nan
  | inf
  | negInf
deriving DecidableEq, Repr

/-- JSON-shaped runtime values (`JSONValue` in `src/lib/canonicalize.ts`).
Objects are insertion-ordered association lists, as in JavaScript. -/
inductive Json where
  | str (s : String)
  | num (n : JNum)
  | bool (b : Bool)
  | null
  | arr (xs : List Json)
  | obj (fields : List (String × Json))

/-! ## Stable sort: the model of `Array.prototype.sort`

`insertLe le x l` inserts `x` before the first element `y` with
`le x y = true`; folding it over the input from the right yields the
standard stable insertion sort.  ES2019 requires `Array.prototype.sort`
to be stable, which this models. -/

/-- Insert `x` into `l` before the first `y` such that `le x y`. -/
def insertLe {α : Type} (le : α → α → Bool) (x : α) : List α → List α
  | [] => [x]
  | y :: ys => if le x y then x :: y :: ys else y :: insertLe le x ys

/-- Stable insertion sort; the model of `Array.prototype.sort(cmp)` with
`le a b ↔ cmp(a,b) ≤ 0`. -/
def sortLe {α : Type} (le : α → α → Bool) : List α → List α
  | [] => []
  | x :: xs => insertLe le x (sortLe le xs)

/-! ## JavaScript string primitives

JavaScript compares strings by code units and the repository only handles
ASCII identifiers, so `<` on strings is modelled as lexicographic order on
the code points of the character list. -/

/-- Lexicographic `<` on character lists (the model of JS string `<` and
of a negative `localeCompare`). -/
def listLtB : List Char → List Char → Bool
  | [], [] => false
  | [], _ :: _ => true
  | _ :: _, [] => false
  | a :: as, b :: bs =>
      if a.toNat < b.toNat then true
      else if b.toNat < a.toNat then false
      else listLtB as bs

/-- JS string `<`. -/
def strLtB (a b : String) : Bool := listLtB a.data b.data

/-- JS string `≤` (`cmp(a,b) ≤ 0` for a code-unit comparator). -/
def strLeB (a b : String) : Bool := ! strLtB b a

/-- `String#trim`: strip leading and trailing whitespace (JS also strips
some exotic Unicode spaces; identifiers in scope are ASCII). -/
def jsTrim (s : String) : String :=
  ⟨((s.data.dropWhile Char.isWhitespace).reverse.dropWhile Char.isWhitespace).reverse⟩

/-- `String#split(".")`. -/
def splitDotAux : List Char → List Char → List String
  | [], acc => [⟨acc.reverse⟩]
  | c :: cs, acc =>
      if c = '.' then ⟨acc.reverse⟩ :: splitDotAux cs [] else splitDotAux cs (c :: acc)

def jsSplitDot (s : String) : List String := splitDotAux s.data []

/-! ## Canonicalizer (`src/lib/canonicalize.ts`) -/

/-- `normalizeNumber`: non-finite numbers coerce to `0`. -/
def normalizeNumber : JNum → JNum
  | .fin q => .fin q
  | _ => .fin 0

/-- Key order used by `sortObjectKeys`: the comparator
`(a < b ? -1 : a > b ? 1 : 0)` over code units, i.e. plain string order. -/
def fieldKeyLe (a b : String × Json) : Bool := strLeB a.1 b.1

mutual

/-- `normalizeValue`: arrays are mapped pointwise, objects get their keys
sorted (`sortObjectKeys`) and values normalized, numbers are definitized.
The source sorts the entries before normalizing the values; since the sort
compares keys only, normalizing first and then sorting is the same
function.  The source also drops entries whose value is `undefined`;
`Json` has no `undefined`, so that filter is the identity here. -/
def normalizeValue : Json → Json
  | .str s => .str s
  | .num n => .num (normalizeNumber n)
  | .bool b => .bool b
  | .null => .null
  | .arr xs => .arr (normalizeList xs)
  | .obj fs => .obj (sortLe fieldKeyLe (normalizeFields fs))

def normalizeList : List Json → List Json
  | [] => []
  | x :: xs => normalizeValue x :: normalizeList xs

def normalizeFields : List (String × Json) → List (String × Json)
  | [] => []
  | (k, v) :: fs => (k, normalizeValue v) :: normalizeFields fs

end

/-- JSON string escaping as in `JSON.stringify` (the common escapes; other
control characters do not occur in the values in scope). -/
def escapeChar (c : Char) : String :=
  if c = '"' then "\\\""
  else if c = '\\' then "\\\\"
  else if c = '\n' then "\\n"
  else if c = '\r' then "\\r"
  else if c = '\t' then "\\t"
  else String.singleton c

def quoteJson (s : String) : String :=
  "\"" ++ String.join (s.data.map escapeChar) ++ "\""

/-- Rendering of a JSON number.  For finite values this is a stand-in for
the ECMAScript double-to-string algorithm (injective on the rationals,
which is all any proof below uses); `JSON.stringify` renders non-finite
numbers as `null` (unreachable after `normalizeValue`). -/
def jnumToString : JNum → String
  | .fin q => toString q
  | _ => "null"

mutual

/-- `JSON.stringify` with no whitespace over normalized values. -/
def stringify : Json → String
  | .str s => quoteJson s
  | .num n => jnumToString n
  | .bool b => if b then "true" else "false"
  | .null => "null"
  | .arr xs => "[" ++ stringifyList xs ++ "]"
  | .obj fs => "\x7b" ++ stringifyFields fs ++ "\x7d"

def stringifyList : List Json → String
  | [] => ""
  | [x] => stringify x
  | x :: y :: xs => stringify x ++ "," ++ stringifyList (y :: xs)

def stringifyFields : List (String × Json) → String
  | [] => ""
  | [(k, v)] => quoteJson k ++ ":" ++ stringify v
  | (k, v) :: g :: fs => quoteJson k ++ ":" ++ stringify v ++ "," ++ stringifyFields (g :: fs)

end

/-- `canonicalize` from `src/lib/canonicalize.ts`. -/
def canonicalize (value : Json) : String :=
  stringify (normalizeValue value)

/-! ## Data model -/

/-- `AdapterRecord` (`src/adapters/types.ts`): one adapter's observation.
`payload` is a small JSON object (at least `price` and `source`). -/
structure AdapterRecord where
  adapterId : String
  entityId : String
  payload : List (String × Json)
  timestamp : String
  sourceFingerprint : String

/-- `ProofPayload` (`src/consumer/types.ts` / `src/petal.ts`): one petal's
epoch submission, including the optional metadata filled by the tailer. -/
structure ProofPayload where
  epoch : ℚ
  stateHash : String
  thresholdFingerprint : String
  petalId : String
  petalAccountId : String
  petalStateTopicId : String
  floraAccountId : String
  participants : List String
  records : List AdapterRecord
  timestamp : String
  adapterFingerprints : List (String × String)
  registryTopicId : String
  hcsMessage : Option String := none
  consensusTimestamp : Option String := none
  sequenceNumber : Option ℚ := none

/-- `ConsensusEntry` (`src/consumer/types.ts`): the aggregation result for
one epoch.  `sources` is the flattened `{source, price}` list. -/
structure ConsensusEntry where
  epoch : ℚ
  stateHash : String
  price : ℚ
  timestamp : String
  participants : List String
  sources : List (String × ℚ)
  hcsMessage : Option String
  consensusTimestamp : Option String
  sequenceNumber : Option ℚ

/-- JSON encoding of an `AdapterRecord` for hashing (field order is
irrelevant: `canonicalize` sorts object keys). -/
def recordJson (r : AdapterRecord) : Json :=
  .obj
    [ ("adapterId", .str r.adapterId)
    , ("entityId", .str r.entityId)
    , ("payload", .obj r.payload)
    , ("timestamp", .str r.timestamp)
    , ("sourceFingerprint", .str r.sourceFingerprint) ]

/-- The record comparator of `buildProof` and `normalizeRecords`:
order by `adapterId`, then `entityId` (`localeCompare` modelled as
code-unit string order). -/
def recordLe (a b : AdapterRecord) : Bool :=
  if a.adapterId = b.adapterId then strLeB a.entityId b.entityId
  else strLeB a.adapterId b.adapterId

/-- `normalizeRecords` (`src/consumer/consensus.ts`): sort a copy of the
records by `(adapterId, entityId)`. -/
def normalizeRecords (records : List AdapterRecord) : List AdapterRecord :=
  sortLe recordLe records

/-- The object hashed into the state hash, with the key insertion order of
the source literal `{records, thresholdFingerprint, adapterFingerprints,
registryTopicId}`. -/
def stateObjectJson (records : List AdapterRecord) (thresholdFingerprint : String)
    (adapterFingerprints : List (String × String)) (registryTopicId : String) : Json :=
  .obj
    [ ("records", .arr (records.map recordJson))
    , ("thresholdFingerprint", .str thresholdFingerprint)
    , ("adapterFingerprints", .obj (adapterFingerprints.map fun kv => (kv.1, .str kv.2)))
    , ("registryTopicId", .str registryTopicId) ]

/-! ## Proof builder and epoch loop (`src/petal.ts`) -/

/-- The slice of `PetalConfig` that `buildProof`/`runEpoch` read.  Times
are integer milliseconds. -/
structure PetalConfig where
  petalId : String
  accountId : String
  floraAccountId : String
  participants : List String
  floraThresholdFingerprint : String
  blockTimeMs : ℤ
  epochOriginMs : ℤ
  publishStateTopic : Bool
  petalStateTopicId : String
  registryTopicId : String

/-- Stand-in for `new Date(ms).toISOString()`: an injective function of
the millisecond value (the Gregorian rendering is an ECMAScript built-in;
no proof below depends on the digits). -/
def isoTimestamp (ms : ℤ) : String :=
  toString ms ++ "Z"

/-- `buildProof` (`src/petal.ts`): rewrite timestamps to the epoch
timestamp, sort records by `(adapterId, entityId)`, hash the canonical
state object with `h` (the SHA-384 primitive), and package the payload.
The source sorts before rewriting; both orders are proved equal in
`C2_hash_fixpoint_roundtrip`. -/
def buildProof (h : String → String) (records : List AdapterRecord) (epoch : ℤ)
    (config : PetalConfig) (adapterFingerprints : List (String × String)) : ProofPayload :=
  let epochTimestamp := isoTimestamp (config.epochOriginMs + epoch * config.blockTimeMs)
  let sortedRecords := sortLe recordLe records
  let normalizedRecords := sortedRecords.map fun r => { r with timestamp := epochTimestamp }
  let stateHash := h (canonicalize (stateObjectJson normalizedRecords
    config.floraThresholdFingerprint adapterFingerprints config.registryTopicId))
  { epoch := (epoch : ℚ)
    stateHash := stateHash
    thresholdFingerprint := config.floraThresholdFingerprint
    petalId := config.petalId
    petalAccountId := config.accountId
    petalStateTopicId := config.petalStateTopicId
    floraAccountId := config.floraAccountId
    participants := config.participants
    records := normalizedRecords
    timestamp := epochTimestamp
    adapterFingerprints := adapterFingerprints
    registryTopicId := config.registryTopicId }

/-- The state-hash recomputation performed by the aggregator on the first
matching proof (`src/consumer/consensus.ts`, lines 100–108):
`sha384(canonicalize({records: normalizeRecords(first.records),
thresholdFingerprint, adapterFingerprints: first.adapterFingerprints,
registryTopicId: first.registryTopicId}))`. -/
def recomputeStateHash (h : String → String) (thresholdFingerprint : String)
    (first : ProofPayload) : String :=
  h (canonicalize (stateObjectJson (normalizeRecords first.records)
    thresholdFingerprint first.adapterFingerprints first.registryTopicId))

/-- Outcome of the awaited `hcs17Client.submitMessage` call in `runEpoch`
(an external network write): it either resolves or rejects. -/
inductive SubmitOutcome where
  | ok
  | err
deriving DecidableEq

/-- `runEpoch` (`src/petal.ts`): the per-adapter `Promise.allSettled`
outcomes are given as `results` (`some record` for fulfilled, `none` for
rejected).  Empty or partial record sets skip the epoch (`ok none`).
When `publishStateTopic` is set, the state-topic write is awaited with no
surrounding `try`: a rejection propagates out of `runEpoch` (`Except.error`).
Otherwise the built proof is returned. -/
def runEpoch (h : String → String) (results : List (Option AdapterRecord))
    (epoch : ℤ) (config : PetalConfig) (adapterFingerprints : List (String × String))
    (submit : SubmitOutcome) : Except Unit (Option ProofPayload) :=
  let records := results.filterMap id
  if records.length = 0 then .ok none
  else if records.length < results.length then .ok none
  else
    let proof := buildProof h records epoch config adapterFingerprints
    if config.publishStateTopic then
      match submit with
      | .err => .error ()
      | .ok => .ok (some proof)
    else .ok (some proof)

/-- The tail of `executeEpoch` (`src/petal.ts`): the built proof is POSTed
to the Consumer in the `.then` continuation; a rejected `runEpoch` lands
in the `.catch` handler, which only logs.  Returns whether the POST to
`/proof` is attempted. -/
def executeEpochPosts (h : String → String) (results : List (Option AdapterRecord))
    (epoch : ℤ) (config : PetalConfig) (adapterFingerprints : List (String × String))
    (submit : SubmitOutcome) : Bool :=
  match runEpoch h results epoch config adapterFingerprints submit with
  | .error _ => false
  | .ok none => false
  | .ok (some _) => true

/-! ## Account-id ordering and leader election (`src/consumer/leader.ts`) -/

/-- The digit fold underlying the `Number(part)` model. -/
def digitsToNat (cs : List Char) : ℕ :=
  cs.foldl (fun n c => n * 10 + (c.toNat - '0'.toNat)) 0

/-- Model of `Number(part)` followed by the `Number.isFinite` guard in
`toAccountParts`: a non-empty all-digit component parses to its decimal
value (a natural number), everything else maps to `0`.  (JavaScript
`Number` also accepts hex/exponent/sign forms, which never occur in
dotted account ids; those map to `0` here.) -/
def parseComponent (s : String) : ℕ :=
  if s.data ≠ [] ∧ s.data.all Char.isDigit then digitsToNat s.data else 0

/-- `toAccountParts`: split on `.` and parse each component. -/
def toAccountParts (value : String) : List ℕ :=
  (jsSplitDot value).map parseComponent

/-- Leftover loop of `compareAccountIds` when the left id has no more
components: each step compares `0 - b`. -/
def comparePartsZeroLeft : List ℕ → Ordering
  | [] => .eq
  | b :: bs => if 0 < b then .lt else if b < 0 then .gt else comparePartsZeroLeft bs

/-- Leftover loop when the right id has no more components: `a - 0`. -/
def comparePartsZeroRight : List ℕ → Ordering
  | [] => .eq
  | a :: as => if a < 0 then .lt else if 0 < a then .gt else comparePartsZeroRight as

/-- The component-difference loop of `compareAccountIds`: walk both part
lists, missing components read as `0`, and the sign of the first non-zero
difference decides. -/
def compareParts : List ℕ → List ℕ → Ordering
  | [], r => comparePartsZeroLeft r
  | a :: as, [] => if a < 0 then .lt else if 0 < a then .gt else comparePartsZeroRight as
  | a :: as, b :: bs => if a < b then .lt else if b < a then .gt else compareParts as bs

/-- Model of `left.localeCompare(right)`: code-point string order (the
two agree on the ASCII account ids in scope). -/
def strCompare (a b : String) : Ordering :=
  if strLtB a b then .lt else if strLtB b a then .gt else .eq

/-- `compareAccountIds`: dotted-integer component order with a
`localeCompare` tie-break. -/
def compareAccountIds (left right : String) : Ordering :=
  match compareParts (toAccountParts left) (toAccountParts right) with
  | .eq => strCompare left right
  | o => o

/-- The `≤` form of `compareAccountIds` used by the stable sort model:
`cmp(a,b) ≤ 0`. -/
def accLe (a b : String) : Bool :=
  compareAccountIds a b != Ordering.gt

/-- `Array.from(new Set(xs))` with the elements already seen carried in
`seen`: keep the first occurrence of each value, in order. -/
def dedupFirstAux (seen : List String) : List String → List String
  | [] => []
  | x :: xs => if x ∈ seen then dedupFirstAux seen xs else x :: dedupFirstAux (x :: seen) xs

/-- `Array.from(new Set(xs))`: keep the first occurrence of each value,
in order. -/
def dedupFirst (l : List String) : List String :=
  dedupFirstAux [] l

/-- `sortAccountIds`: trim, drop empties (`filter(Boolean)`), deduplicate,
sort by `compareAccountIds`. -/
def sortAccountIds (ids : List String) : List String :=
  sortLe accLe (dedupFirst ((ids.map jsTrim).filter fun s => s ≠ ""))

/-- `selectRoundLeader` (`src/consumer/leader.ts`): the sorted participant
list indexed at `|epoch| mod length`, `null` when the list is empty. -/
def selectRoundLeader (epoch : ℤ) (accountIds : List String) : Option String :=
  let sorted := sortAccountIds accountIds
  if hlen : sorted.length = 0 then none
  else some (sorted.get ⟨epoch.natAbs % sorted.length, Nat.mod_lt _ (Nat.pos_of_ne_zero hlen)⟩)

/-- `isAccountId` (`src/consumer/consensus.ts`): the regular expression
`/^\d+\.\d+\.\d+$/` applied to the trimmed value — exactly three
non-empty all-digit components. -/
def isAccountId (value : String) : Bool :=
  match jsSplitDot (jsTrim value) with
  | [a, b, c] =>
      a ≠ "" && a.data.all Char.isDigit && (b ≠ "" && b.data.all Char.isDigit)
        && (c ≠ "" && c.data.all Char.isDigit)
  | _ => false

/-! ## Aggregator (`src/consumer/consensus.ts`, the group-by-state-hash
variant imported by `src/consumer/server.ts`) -/

/-- `ConsensusResult`: the emitted entry together with the matching
proofs handed to the leader publisher. -/
structure ConsensusResult where
  entry : ConsensusEntry
  proofs : List ProofPayload

/-- One step of filling the `Map<string, ProofPayload[]>` bucket map:
push onto an existing bucket, else append a new binding (JS `Map`
iteration order is insertion order). -/
def addToGroups : List (String × List ProofPayload) → String → ProofPayload →
    List (String × List ProofPayload)
  | [], hash, p => [(hash, [p])]
  | (k, b) :: rest, hash, p =>
      if k = hash then (k, b ++ [p]) :: rest else (k, b) :: addToGroups rest hash p

/-- One grouping step: proofs with an empty (falsy) `stateHash` are
skipped. -/
def groupStep (gs : List (String × List ProofPayload)) (p : ProofPayload) :
    List (String × List ProofPayload) :=
  if p.stateHash = "" then gs else addToGroups gs p.stateHash p

/-- The grouping loop of `aggregateConsensus`. -/
def groupByHash (proofs : List ProofPayload) : List (String × List ProofPayload) :=
  proofs.foldl groupStep []

/-- One selection step: take the group whose bucket is strictly larger
than the current `matching` (`bucket.length > matching.length`). -/
def pickStep (acc : Option String × List ProofPayload) (g : String × List ProofPayload) :
    Option String × List ProofPayload :=
  if acc.2.length < g.2.length then (some g.1, g.2) else acc

/-- The selection loop, starting from `(null, [])`. -/
def pickLargest (groups : List (String × List ProofPayload)) :
    Option String × List ProofPayload :=
  groups.foldl pickStep (none, [])

/-- The `typeof price === 'number' && Number.isFinite(price)` filter
applied to `record.payload.price` (an absent key is `undefined`). -/
def finitePriceOf (r : AdapterRecord) : Option ℚ :=
  match r.payload.lookup "price" with
  | some (.num (.fin q)) => some q
  | _ => none

/-- `prices`: all finite numeric record prices of the matching proofs, in
proof order then record order (`flatMap` + `filter` in the source, fused
here into `filterMap`). -/
def collectPrices (matching : List ProofPayload) : List ℚ :=
  matching.flatMap fun pr => pr.records.filterMap finitePriceOf

/-- `medianPrice`: sort ascending (`(a, b) => a - b`); `mid = ⌊n/2⌋`; even
length averages `sorted[mid-1]` and `sorted[mid]`, odd length takes
`sorted[mid]`.  The source indexes unconditionally and is only invoked on
a non-empty list; `getD _ 0` is the total rendering of that indexing. -/
def medianPrice (prices : List ℚ) : ℚ :=
  let sorted := sortLe (fun a b => decide (a ≤ b)) prices
  let mid := sorted.length / 2
  if sorted.length % 2 = 0 then (sorted.getD (mid - 1) 0 + sorted.getD mid 0) / 2
  else sorted.getD mid 0

/-- Model of `Number(x.toFixed(8))` over the rationals: round to 8
decimal places (ties half-up; the exact IEEE-754 tie behaviour of
`toFixed` is outside the embedding). -/
def roundTo8 (q : ℚ) : ℚ :=
  ((round (q * 100000000) : ℤ) : ℚ) / 100000000

/-- The per-record price written into `sources`:
`Number((record.payload.price ?? 0).toFixed(8))`.  A `null`/absent price
reads as `0`; a non-finite or non-numeric price (which would produce `NaN`
or throw in JavaScript, and never occurs in the pipeline) is modelled as
`0` — no claim reads `sources`. -/
def sourcePrice (r : AdapterRecord) : ℚ :=
  match r.payload.lookup "price" with
  | some (.num (.fin q)) => roundTo8 q
  | some .null => roundTo8 0
  | none => roundTo8 0
  | some _ => 0

/-- The flattened `{source, price}` list over the matching proofs. -/
def sourcesOf (matching : List ProofPayload) : List (String × ℚ) :=
  matching.flatMap fun pr => pr.records.map fun r => (r.adapterId, sourcePrice r)

/-- `matching.flatMap(p => p.participants ?? []).filter(isAccountId)`. -/
def proofAccountIds (matching : List ProofPayload) : List String :=
  (matching.flatMap (·.participants)).filter fun s => isAccountId s

/-- The participant pool preference of `aggregateConsensus`: the
configured participants when non-empty, else well-formed account ids from
the proofs, else each matching proof's `petalAccountId`. -/
def participantPool (participants : Option (List String))
    (matching : List ProofPayload) : List String :=
  let fallback :=
    if 0 < (proofAccountIds matching).length then proofAccountIds matching
    else matching.map (·.petalAccountId)
  match participants with
  | some ps => if 0 < ps.length then ps else fallback
  | none => fallback

/-- `matching.map(p => p.consensusTimestamp).find(v => Boolean(v)) ??
first.consensusTimestamp` — the first truthy (present, non-empty)
timestamp, else the first proof's. -/
def pickConsensusTimestamp (matching : List ProofPayload) (first : ProofPayload) :
    Option String :=
  match (matching.filterMap fun p =>
      p.consensusTimestamp.bind fun s => if s = "" then none else some s).head? with
  | some s => some s
  | none => first.consensusTimestamp

/-- `matching.map(p => p.sequenceNumber).find(v => v !== undefined) ??
first.sequenceNumber`. -/
def pickSequenceNumber (matching : List ProofPayload) (first : ProofPayload) :
    Option ℚ :=
  match (matching.filterMap (·.sequenceNumber)).head? with
  | some n => some n
  | none => first.sequenceNumber

/-- `aggregateConsensus` (`src/consumer/consensus.ts`): bucket below
quorum → null; group by `stateHash` (empty hashes skipped), take the
largest group; group below quorum → null; recompute the state hash from
the first matching proof and compare; collect finite prices (none →
null); emit the consensus entry with the rounded median price and the
sorted participant pool. -/
def aggregateConsensus (h : String → String) (epoch : ℚ) (proofs : List ProofPayload)
    (quorum : ℕ) (thresholdFingerprint : String)
    (participants : Option (List String)) : Option ConsensusResult :=
  if proofs.length < quorum then none
  else
    let chosen := pickLargest (groupByHash proofs)
    match chosen.1 with
    | none => none
    | some chosenHash =>
        let matching := chosen.2
        if matching.length < quorum then none
        else
          match matching with
          | [] => none
          | first :: _ =>
              let stateHash := recomputeStateHash h thresholdFingerprint first
              if stateHash ≠ chosenHash then none
              else
                let prices := collectPrices matching
                if prices.length = 0 then none
                else
                  some
                    { entry :=
                        { epoch := epoch
                          stateHash := stateHash
                          price := roundTo8 (medianPrice prices)
                          timestamp := first.timestamp
                          participants := sortAccountIds (participantPool participants matching)
                          sources := sourcesOf matching
                          hcsMessage := first.hcsMessage
                          consensusTimestamp := pickConsensusTimestamp matching first
                          sequenceNumber := pickSequenceNumber matching first }
                      proofs := matching }

/-! ## Consumer server (`src/consumer/server.ts`)

The consumer's mutable state is modelled as an explicit `ServerState`
record; each handler is a function from state to state.  JS `Map`s and
keyed objects are insertion-ordered association lists with the helpers
`alGet`/`alSet` below.  The publish-side maps (`publishedConsensus`,
`publishingConsensus`, retry timers) are driven by asynchronous network
completions and are not part of this model; `scheduleConsensusPublish`
touches only those, so it appears here as a no-op. -/

/-- First binding for a key (JS `Map.get` / object indexing). -/
def alGet {V : Type} (m : List (String × V)) (k : String) : Option V :=
  m.lookup k

/-- `Map.set`: replace in place if the key exists, else append. -/
def alSet {V : Type} : List (String × V) → String → V → List (String × V)
  | [], k, v => [(k, v)]
  | (k', v') :: rest, k, v =>
      if k' = k then (k', v) :: rest else (k', v') :: alSet rest k v

/-- Rational-keyed variant (epoch-keyed maps). -/
def alGetQ {V : Type} (m : List (ℚ × V)) (k : ℚ) : Option V :=
  m.lookup k

def alSetQ {V : Type} : List (ℚ × V) → ℚ → V → List (ℚ × V)
  | [], k, v => [(k, v)]
  | (k', v') :: rest, k, v =>
      if k' = k then (k', v) :: rest else (k', v') :: alSetQ rest k v

/-- `PetalAdapterState` (`src/consumer/types.ts`). -/
structure PetalAdapterState where
  petalId : String
  accountId : String
  stateTopicId : String
  epoch : ℚ
  timestamp : String
  adapters : List String
  fingerprints : List (String × String)

/-- Per-epoch log metadata. -/
structure EpochMeta where
  consensusTimestamp : Option String := none
  sequenceNumber : Option ℚ := none

/-- A chunk buffer entry: `total_chunks` slots, assigned or holes. -/
structure ChunkState where
  total : ℕ
  parts : List (Option String)

/-- `ChunkedProofPayload` (`src/consumer/validation.ts`).  `chunk_id` and
`total_chunks` are finite JS numbers; non-natural values crash the JS
handler (`new Array`/negative indexing) and are outside the model. -/
structure ChunkedProofPayload where
  epoch : ℚ
  petalId : String
  petalAccountId : String
  floraAccountId : String
  chunk_id : ℕ
  total_chunks : ℕ
  data : String

/-- The slice of `ConsumerConfig` the modelled handlers read. -/
structure ConsumerConfig where
  quorum : ℕ
  expectedPetals : ℕ
  thresholdFingerprint : String
  petalAccountsById : Option (List (String × String))
  floraAccountId : String
  stateTopicId : String
  adapterCategoryTopicId : String

/-- `participantAccounts`: the sorted bootstrap account ids, `[]` when no
bootstrap map is configured. -/
def participantAccounts (config : ConsumerConfig) : List String :=
  match config.petalAccountsById with
  | some m => sortAccountIds (m.map (·.2))
  | none => []

/-- The consumer's aggregator state. -/
structure ServerState where
  proofsByEpoch : List (ℚ × List ProofPayload) := []
  history : List ConsensusEntry := []
  petalAdapters : List (String × PetalAdapterState) := []
  metaByEpoch : List (ℚ × EpochMeta) := []
  metaQueue : List ℚ := []
  petalStateTopicsById : List (String × String) := []
  chunkBuffer : List (String × ChunkState) := []

/-- `hasExpectedParticipants` (`src/consumer/server.ts`): length against
the bootstrap count (else `expectedPetals`), then — when a bootstrap set
exists — element-wise equality of the sorted ids. -/
def hasExpectedParticipants (config : ConsumerConfig) (participants : List String) : Bool :=
  let pa := participantAccounts config
  let expectedCount := if 0 < pa.length then pa.length else config.expectedPetals
  if 0 < expectedCount ∧ participants.length ≠ expectedCount then false
  else if pa.length = 0 then true
  else
    let normalized := sortAccountIds participants
    normalized.length = pa.length && normalized = pa

/-- The history ordering comparator `(a, b) => a.epoch - b.epoch`. -/
def entryEpochLe (a b : ConsensusEntry) : Bool :=
  decide (a.epoch ≤ b.epoch)

/-- The history update on a fresh consensus entry: skip if some entry
with the same `(epoch, stateHash)` already exists, else push and re-sort
by epoch. -/
def historyPush (history : List ConsensusEntry) (entry : ConsensusEntry) :
    List ConsensusEntry :=
  if history.any fun item =>
      item.epoch = entry.epoch ∧ item.stateHash = entry.stateHash then history
  else sortLe entryEpochLe (history ++ [entry])

/-- `ingestProof`, whole-payload branch (`src/consumer/server.ts`,
lines 407–455): enrich with known epoch metadata and the `hcs://17/…`
pointer, record the petal's adapter roster, append to the epoch bucket,
queue the epoch for metadata backfill, and attempt aggregation; a fresh
`(epoch, stateHash)` consensus entry is pushed into the epoch-sorted
history (`scheduleConsensusPublish` touches only the unmodelled publish
maps). -/
def ingestWhole (h : String → String) (config : ConsumerConfig) (st : ServerState)
    (proof : ProofPayload) : ServerState :=
  let meta := alGetQ st.metaByEpoch proof.epoch
  let hcsPointer := "hcs://17/" ++ config.stateTopicId
  let enriched : ProofPayload :=
    { proof with
      hcsMessage := some ((proof.hcsMessage).getD hcsPointer)
      consensusTimestamp :=
        match meta.bind (·.consensusTimestamp) with
        | some ts => some ts
        | none => proof.consensusTimestamp
      sequenceNumber :=
        match meta.bind (·.sequenceNumber) with
        | some n => some n
        | none => proof.sequenceNumber }
  let adapterIds := sortLe strLeB (enriched.adapterFingerprints.map (·.1))
  let petalAdapters' := alSet st.petalAdapters enriched.petalId
    { petalId := enriched.petalId
      accountId := enriched.petalAccountId
      stateTopicId := enriched.petalStateTopicId
      epoch := enriched.epoch
      timestamp := enriched.timestamp
      adapters := adapterIds
      fingerprints := enriched.adapterFingerprints }
  let bucket := (alGetQ st.proofsByEpoch enriched.epoch).getD [] ++ [enriched]
  let proofsByEpoch' := alSetQ st.proofsByEpoch enriched.epoch bucket
  let metaQueue' :=
    if (alGetQ st.metaByEpoch enriched.epoch).isNone ∧ enriched.epoch ∉ st.metaQueue then
      st.metaQueue ++ [enriched.epoch]
    else st.metaQueue
  let st' : ServerState :=
    { st with
      petalAdapters := petalAdapters'
      proofsByEpoch := proofsByEpoch'
      metaQueue := metaQueue' }
  match aggregateConsensus h enriched.epoch bucket config.quorum
      config.thresholdFingerprint (some (participantAccounts config)) with
  | none => st'
  | some result => { st' with history := historyPush st'.history result.entry }

/-- Result of `JSON.parse` + `isProofPayload` on an assembled chunk
string — an external parse (the `decode` parameter below). -/
inductive ChunkParse where
  | parseError
  | invalid
  | valid (proof : ProofPayload)

/-- `ingestProof`, chunked branch.  Faithful to the sparse-array
semantics of the source: `new Array(total_chunks)` is all holes,
`parts.every(p => p !== undefined)` skips holes and every assigned part
is a string, so assembly is attempted on every arrival; `join` renders
holes as `""`.  A parse error keeps the buffer; a parse that yields a
non-proof drops it; a valid proof drops it and is ingested whole. -/
def ingestChunk (h : String → String) (config : ConsumerConfig)
    (decode : String → ChunkParse) (st : ServerState)
    (proof : ChunkedProofPayload) : ServerState :=
  let key := proof.petalId ++ "-" ++ toString proof.epoch
  let existing := (alGet st.chunkBuffer key).getD
    { total := proof.total_chunks, parts := List.replicate proof.total_chunks none }
  let parts' :=
    if proof.chunk_id = 0 ∨ existing.parts.length < proof.chunk_id then existing.parts
    else existing.parts.set (proof.chunk_id - 1) (some proof.data)
  let buffered := { existing with parts := parts' }
  let st' := { st with chunkBuffer := alSet st.chunkBuffer key buffered }
  let assembled := String.join (parts'.map (·.getD ""))
  match decode assembled with
  | .parseError => st'
  | .invalid => { st' with chunkBuffer := st'.chunkBuffer.filter fun kv => kv.1 ≠ key }
  | .valid p =>
      ingestWhole h config
        { st' with chunkBuffer := st'.chunkBuffer.filter fun kv => kv.1 ≠ key } p

/-- An HTTP response: status code and the reason/status body string. -/
structure HttpResponse where
  status : ℕ
  body : String
deriving DecidableEq

/-- The tail of the whole-payload `POST /proof` handler after the petal
state topic has been (possibly) recorded: flora account, threshold
fingerprint and registry topic checks, then ingestion. -/
def postProofPolicyChecks (h : String → String) (config : ConsumerConfig)
    (st1 : ServerState) (payload : ProofPayload) : HttpResponse × ServerState :=
  if payload.floraAccountId ≠ config.floraAccountId then
    (⟨400, "Invalid flora account"⟩, st1)
  else if payload.thresholdFingerprint ≠ config.thresholdFingerprint then
    (⟨400, "Invalid threshold fingerprint"⟩, st1)
  else if payload.registryTopicId ≠ config.adapterCategoryTopicId then
    (⟨400, "Unexpected registry topic"⟩, st1)
  else (⟨200, "accepted"⟩, ingestWhole h config st1 payload)

/-- `POST /proof` for a structurally valid whole `ProofPayload`
(`src/consumer/server.ts`, lines 219–262; the payload has already failed
`isChunkedProofPayload` and passed `isProofPayload`).  Check order is the
source's: petal-account binding, participants, petal state topic (a first
sighting is recorded *before* the remaining checks), then flora account,
threshold fingerprint and registry topic; only then ingest. -/
def postProofWhole (h : String → String) (config : ConsumerConfig) (st : ServerState)
    (payload : ProofPayload) : HttpResponse × ServerState :=
  let expectedAccountId := ((config.petalAccountsById.getD []).lookup payload.petalId).getD ""
  if expectedAccountId ≠ "" ∧ payload.petalAccountId ≠ expectedAccountId then
    (⟨400, "Invalid petal account"⟩, st)
  else if ¬ hasExpectedParticipants config payload.participants then
    (⟨400, "Unexpected participants"⟩, st)
  else
    let existingStateTopic := (alGet st.petalStateTopicsById payload.petalId).getD ""
    if existingStateTopic ≠ "" ∧ payload.petalStateTopicId ≠ existingStateTopic then
      (⟨400, "Invalid petal state topic"⟩, st)
    else
      postProofPolicyChecks h config
        (if existingStateTopic = "" then { st with petalStateTopicsById := alSet st.petalStateTopicsById payload.petalId payload.petalStateTopicId } else st)
        payload

/-- `POST /proof` for a structurally valid `ChunkedProofPayload`
(`src/consumer/server.ts`, lines 196–212): only the petal-account binding
and the flora account of the chunk envelope are checked before the chunk
is buffered. -/
def postProofChunked (h : String → String) (config : ConsumerConfig)
    (decode : String → ChunkParse) (st : ServerState)
    (payload : ChunkedProofPayload) : HttpResponse × ServerState :=
  let expectedAccountId := ((config.petalAccountsById.getD []).lookup payload.petalId).getD ""
  if expectedAccountId ≠ "" ∧ payload.petalAccountId ≠ expectedAccountId then
    (⟨400, "Invalid petal account"⟩, st)
  else if payload.floraAccountId ≠ config.floraAccountId then
    (⟨400, "Invalid flora account"⟩, st)
  else (⟨200, "accepted"⟩, ingestChunk h config decode st payload)

/-- The state-topic poller's proof path (`src/consumer/state-topic-poller.ts`):
a mirror message that decodes to a structurally valid `ProofPayload` is
handed to `ingestProof` with the `hcs://17/…` pointer, the message's
consensus timestamp and its sequence number — and no policy validation. -/
def tailerIngest (h : String → String) (config : ConsumerConfig) (st : ServerState)
    (proof : ProofPayload) (consensusTimestamp : String) (sequenceNumber : ℚ) : ServerState :=
  ingestWhole h config st
    { proof with
      hcsMessage := some ("hcs://17/" ++ config.stateTopicId)
      consensusTimestamp := some consensusTimestamp
      sequenceNumber := some sequenceNumber }

/-! ## Lemmas about the stable sort -/

theorem insertLe_perm {α : Type} (le : α → α → Bool) (x : α) (l : List α) :
    (insertLe le x l).Perm (x :: l) := by
  induction l with
  | nil => exact List.Perm.refl _
  | cons y ys ih =>
      simp only [insertLe]
      split
      · exact List.Perm.refl _
      · exact (ih.cons y).trans (List.Perm.swap x y ys)

theorem sortLe_perm {α : Type} (le : α → α → Bool) (l : List α) :
    (sortLe le l).Perm l := by
  induction l with
  | nil => exact List.Perm.refl _
  | cons x xs ih => exact (insertLe_perm le x _).trans (ih.cons x)

theorem mem_sortLe {α : Type} (le : α → α → Bool) {x : α} {l : List α} :
    x ∈ sortLe le l ↔ x ∈ l :=
  (sortLe_perm le l).mem_iff

theorem length_sortLe {α : Type} (le : α → α → Bool) (l : List α) :
    (sortLe le l).length = l.length :=
  (sortLe_perm le l).length_eq

theorem chain'_insertLe {α : Type} (le : α → α → Bool)
    (htot : ∀ a b, le a b = true ∨ le b a = true) (x : α) {l : List α}
    (hl : l.Chain' (le · · = true)) :
    (insertLe le x l).Chain' (le · · = true) := by
  induction l with
  | nil => simp [insertLe]
  | cons y ys ih =>
      simp only [insertLe]
      by_cases h : le x y = true
      · simp only [h, if_true]
        exact hl.cons h
      · simp only [h, if_false]
        refine List.chain'_cons'.mpr ⟨?_, ih hl.tail⟩
        intro b hb
        cases ys with
        | nil =>
            simp only [insertLe, List.head?_cons, Option.mem_def] at hb
            cases hb
            rcases htot x y with hxy | hyx
            · exact absurd hxy h
            · exact hyx
        | cons z zs =>
            simp only [insertLe] at hb
            by_cases hxz : le x z = true
            · simp only [hxz, if_true, List.head?_cons, Option.mem_def] at hb
              cases hb
              rcases htot x y with hxy | hyx
              · exact absurd hxy h
              · exact hyx
            · simp only [hxz, if_false, List.head?_cons, Option.mem_def] at hb
              cases hb
              exact List.chain'_cons.mp hl |>.1

theorem chain'_sortLe {α : Type} (le : α → α → Bool)
    (htot : ∀ a b, le a b = true ∨ le b a = true) (l : List α) :
    (sortLe le l).Chain' (le · · = true) := by
  induction l with
  | nil => simp [sortLe]
  | cons x xs ih => exact chain'_insertLe le htot x ih

theorem sortLe_eq_self {α : Type} (le : α → α → Bool) {l : List α}
    (hl : l.Chain' (le · · = true)) : sortLe le l = l := by
  induction l with
  | nil => rfl
  | cons x xs ih =>
      simp only [sortLe, ih hl.tail]
      cases xs with
      | nil => rfl
      | cons y ys =>
          have hxy : le x y = true := List.chain'_cons.mp hl |>.1
          simp [insertLe, hxy]

theorem insertLe_map {α β : Type} (le : α → α → Bool) (le' : β → β → Bool)
    (f : α → β) (hf : ∀ a b, le' (f a) (f b) = le a b) (x : α) (l : List α) :
    insertLe le' (f x) (l.map f) = (insertLe le x l).map f := by
  induction l with
  | nil => rfl
  | cons y ys ih =>
      simp only [List.map_cons, insertLe, hf]
      by_cases h : le x y = true
      · simp [h]
      · simp [h, ih]

theorem sortLe_map {α β : Type} (le : α → α → Bool) (le' : β → β → Bool)
    (f : α → β) (hf : ∀ a b, le' (f a) (f b) = le a b) (l : List α) :
    sortLe le' (l.map f) = (sortLe le l).map f := by
  induction l with
  | nil => rfl
  | cons x xs ih =>
      simp only [List.map_cons, sortLe, ih]
      exact insertLe_map le le' f hf x (sortLe le xs)

theorem nodup_sortLe {α : Type} (le : α → α → Bool) {l : List α} (hl : l.Nodup) :
    (sortLe le l).Nodup :=
  (sortLe_perm le l).nodup_iff.mpr hl

/-! ## Lemmas about the account-id order -/

theorem comparePartsZeroRight_swap (bs : List ℕ) :
    comparePartsZeroRight bs = (comparePartsZeroLeft bs).swap := by
  induction bs with
  | nil => simp [comparePartsZeroLeft, comparePartsZeroRight, Ordering.swap]
  | cons b bs ih =>
      simp only [comparePartsZeroLeft, comparePartsZeroRight]
      by_cases h1 : 0 < b
      · have h2 : ¬ b < 0 := by omega
        simp [h1, h2, Ordering.swap]
      · have h2 : ¬ b < 0 := by omega
        simp [h1, h2, ih]

theorem compareParts_nil_swap (bs : List ℕ) :
    compareParts bs [] = (compareParts [] bs).swap := by
  cases bs with
  | nil => simp [compareParts, comparePartsZeroLeft, Ordering.swap]
  | cons b bs =>
      simp only [compareParts, comparePartsZeroLeft]
      by_cases h1 : 0 < b
      · have h2 : ¬ b < 0 := by omega
        simp [h1, h2, Ordering.swap]
      · have h2 : ¬ b < 0 := by omega
        simp [h1, h2, comparePartsZeroRight_swap]

theorem compareParts_swap (l r : List ℕ) :
    compareParts r l = (compareParts l r).swap := by
  induction l generalizing r with
  | nil => exact compareParts_nil_swap r
  | cons a as ih =>
      cases r with
      | nil => rw [compareParts_nil_swap, Ordering.swap_swap]
      | cons b bs =>
          simp only [compareParts]
          by_cases h1 : a < b
          · have h2 : ¬ b < a := by omega
            simp [h1, h2, Ordering.swap]
          · by_cases h2 : b < a
            · simp [h1, h2, Ordering.swap]
            · simp [h1, h2, ih]

theorem listLtB_asymm : ∀ as bs : List Char, listLtB as bs = true → listLtB bs as = false := by
  intro as
  induction as with
  | nil => intro bs h; cases bs <;> simp_all [listLtB]
  | cons a as ih =>
      intro bs h
      cases bs with
      | nil => simp [listLtB] at h
      | cons b bs =>
          simp only [listLtB] at h ⊢
          by_cases h1 : a.toNat < b.toNat
          · have h2 : ¬ b.toNat < a.toNat := by omega
            simp [h1, h2]
          · by_cases h2 : b.toNat < a.toNat
            · simp [h1, h2] at h
            · simp [h1, h2] at h ⊢
              exact ih bs h

theorem strCompare_swap (a b : String) :
    strCompare b a = (strCompare a b).swap := by
  unfold strCompare
  by_cases h1 : strLtB a b = true
  · have h2 : strLtB b a = false := listLtB_asymm _ _ h1
    simp [h1, h2, Ordering.swap]
  · by_cases h2 : strLtB b a = true
    · simp [h1, h2, Ordering.swap]
    · simp [h1, h2, Ordering.swap]

theorem compareAccountIds_swap (a b : String) :
    compareAccountIds b a = (compareAccountIds a b).swap := by
  unfold compareAccountIds
  rw [compareParts_swap (toAccountParts a) (toAccountParts b), strCompare_swap]
  cases compareParts (toAccountParts a) (toAccountParts b) <;> simp [Ordering.swap]

theorem accLe_total (a b : String) : accLe a b = true ∨ accLe b a = true := by
  unfold accLe
  cases hab : compareAccountIds a b with
  | lt => left; rfl
  | eq => left; rfl
  | gt =>
      right
      rw [compareAccountIds_swap a b, hab]
      rfl

theorem strLeB_total (a b : String) : strLeB a b = true ∨ strLeB b a = true := by
  unfold strLeB
  by_cases h : strLtB b a = true
  · right
    have := listLtB_asymm _ _ h
    unfold strLtB at this ⊢
    simp [this]
  · left
    simp [h]

theorem recordLe_total (a b : AdapterRecord) : recordLe a b = true ∨ recordLe b a = true := by
  unfold recordLe
  by_cases h : a.adapterId = b.adapterId
  · simp [h, strLeB_total]
  · have h' : ¬ b.adapterId = a.adapterId := fun hh => h hh.symm
    simp [h, h', strLeB_total]

/-! ## Lemmas about `dedupFirst`, `sortAccountIds`, `selectRoundLeader` -/

theorem mem_dedupFirstAux :
    ∀ (l seen : List String) (x : String),
      x ∈ dedupFirstAux seen l ↔ x ∈ l ∧ x ∉ seen := by
  intro l
  induction l with
  | nil => intro seen x; simp [dedupFirstAux]
  | cons y ys ih =>
      intro seen x
      simp only [dedupFirstAux]
      by_cases hy : y ∈ seen
      · rw [if_pos hy, ih]
        constructor
        · rintro ⟨hx, hxs⟩
          exact ⟨List.mem_cons_of_mem _ hx, hxs⟩
        · rintro ⟨hx, hxs⟩
          rcases List.mem_cons.mp hx with rfl | hx
          · exact absurd hy hxs
          · exact ⟨hx, hxs⟩
      · rw [if_neg hy]
        simp only [List.mem_cons, ih]
        constructor
        · rintro (rfl | ⟨hx, hxs⟩)
          · exact ⟨Or.inl rfl, hy⟩
          · exact ⟨Or.inr hx, fun hs => hxs (Or.inr hs)⟩
        · rintro ⟨rfl | hx, hxs⟩
          · exact Or.inl rfl
          · by_cases hxy : x = y
            · exact Or.inl hxy
            · exact Or.inr ⟨hx, by simp [hxy, hxs]⟩

theorem mem_dedupFirst : ∀ (l : List String) (x : String), x ∈ dedupFirst l ↔ x ∈ l := by
  intro l x
  unfold dedupFirst
  rw [mem_dedupFirstAux]
  simp

theorem dedupFirstAux_nodup :
    ∀ (l seen : List String), (dedupFirstAux seen l).Nodup := by
  intro l
  induction l with
  | nil => intro seen; simp [dedupFirstAux]
  | cons y ys ih =>
      intro seen
      simp only [dedupFirstAux]
      by_cases hy : y ∈ seen
      · rw [if_pos hy]
        exact ih seen
      · rw [if_neg hy]
        refine List.nodup_cons.mpr ⟨?_, ih (y :: seen)⟩
        intro hmem
        have := (mem_dedupFirstAux ys (y :: seen) y).mp hmem
        exact this.2 (List.mem_cons_self _ _)

theorem dedupFirst_nodup : ∀ l : List String, (dedupFirst l).Nodup := by
  intro l
  exact dedupFirstAux_nodup l []

theorem sortAccountIds_nodup (ids : List String) : (sortAccountIds ids).Nodup :=
  nodup_sortLe _ (dedupFirst_nodup _)

theorem sortAccountIds_chain (ids : List String) :
    (sortAccountIds ids).Chain' (accLe · · = true) :=
  chain'_sortLe accLe accLe_total _

theorem mem_sortAccountIds {x : String} {ids : List String} :
    x ∈ sortAccountIds ids ↔ (∃ y ∈ ids, jsTrim y = x) ∧ x ≠ "" := by
  unfold sortAccountIds
  rw [mem_sortLe, mem_dedupFirst]
  simp only [List.mem_filter, List.mem_map, decide_eq_true_eq]

theorem selectRoundLeader_eq (epoch : ℤ) (ids : List String) :
    selectRoundLeader epoch ids
      = (sortAccountIds ids)[epoch.natAbs % (sortAccountIds ids).length]? := by
  unfold selectRoundLeader
  by_cases hlen : (sortAccountIds ids).length = 0
  · have hnil : sortAccountIds ids = [] := List.length_eq_zero.mp hlen
    simp [hlen, hnil]
  · rw [dif_neg hlen]
    have hidx : epoch.natAbs % (sortAccountIds ids).length < (sortAccountIds ids).length :=
      Nat.mod_lt _ (Nat.pos_of_ne_zero hlen)
    rw [List.getElem?_eq_getElem hidx]
    simp [List.get_eq_getElem]

/-! ## Lemmas about grouping and selection -/

/-- Invariant of the bucket map: non-empty keys, non-empty buckets, and
every proof in a bucket carries the bucket's hash. -/
def goodGroups (gs : List (String × List ProofPayload)) : Prop :=
  ∀ g ∈ gs, g.1 ≠ "" ∧ g.2 ≠ [] ∧ ∀ p ∈ g.2, p.stateHash = g.1

theorem addToGroups_good {gs : List (String × List ProofPayload)}
    (hgs : goodGroups gs) {hash : String} {p : ProofPayload}
    (hh : hash ≠ "") (hp : p.stateHash = hash) :
    goodGroups (addToGroups gs hash p) := by
  induction gs with
  | nil =>
      intro g hg
      simp only [addToGroups, List.mem_singleton] at hg
      subst hg
      exact ⟨hh, by simp, by simp [hp]⟩
  | cons kb rest ih =>
      obtain ⟨k, b⟩ := kb
      simp only [addToGroups]
      by_cases hk : k = hash
      · subst hk
        simp only [if_pos rfl]
        intro g hg
        rcases List.mem_cons.mp hg with hg | hg
        · subst hg
          rcases hgs (k, b) (List.mem_cons_self _ _) with ⟨h1, h2, h3⟩
          refine ⟨h1, by simp, ?_⟩
          intro q hq
          rcases List.mem_append.mp hq with hq | hq
          · exact h3 q hq
          · rcases List.mem_singleton.mp hq with rfl
            exact hp
        · exact hgs g (List.mem_cons_of_mem _ hg)
      · simp only [if_neg hk]
        intro g hg
        rcases List.mem_cons.mp hg with hg | hg
        · subst hg
          exact hgs (k, b) (List.mem_cons_self _ _)
        · exact ih (fun g' hg' => hgs g' (List.mem_cons_of_mem _ hg')) g hg

theorem foldl_groupStep_good :
    ∀ (l : List ProofPayload) (acc : List (String × List ProofPayload)),
      goodGroups acc → goodGroups (l.foldl groupStep acc) := by
  intro l
  induction l with
  | nil => intro acc h; exact h
  | cons p ps ih =>
      intro acc h
      simp only [List.foldl_cons]
      apply ih
      unfold groupStep
      by_cases hp : p.stateHash = ""
      · simpa [hp] using h
      · simp only [if_neg hp]
        exact addToGroups_good h hp rfl

theorem groupByHash_good (proofs : List ProofPayload) : goodGroups (groupByHash proofs) :=
  foldl_groupStep_good proofs [] (by intro g hg; simp at hg)

/-- The bucket stored for a hash. -/
def bucketOf (gs : List (String × List ProofPayload)) (k : String) : List ProofPayload :=
  (gs.lookup k).getD []

theorem bucketOf_addToGroups_same (gs : List (String × List ProofPayload))
    (k : String) (p : ProofPayload) :
    bucketOf (addToGroups gs k p) k = bucketOf gs k ++ [p] := by
  induction gs with
  | nil => simp [addToGroups, bucketOf, List.lookup]
  | cons kb rest ih =>
      obtain ⟨k', b⟩ := kb
      simp only [addToGroups]
      by_cases hk : k' = k
      · subst hk
        simp [bucketOf, List.lookup]
      · simp only [if_neg hk]
        have hbeq : (k == k') = false := by
          simp [beq_eq_false_iff_ne]
          exact fun hh => hk hh.symm
        simp [bucketOf, List.lookup, hbeq] at ih ⊢
        exact ih

theorem bucketOf_addToGroups_other (gs : List (String × List ProofPayload))
    {k k' : String} (p : ProofPayload) (hne : k' ≠ k) :
    bucketOf (addToGroups gs k p) k' = bucketOf gs k' := by
  induction gs with
  | nil => simp [addToGroups, bucketOf, List.lookup, beq_eq_false_iff_ne.mpr hne]
  | cons kb rest ih =>
      obtain ⟨k0, b⟩ := kb
      simp only [addToGroups]
      by_cases hk : k0 = k
      · subst hk
        simp [bucketOf, List.lookup, beq_eq_false_iff_ne.mpr hne]
      · simp only [if_neg hk]
        by_cases hk0 : k' = k0
        · subst hk0
          simp [bucketOf, List.lookup]
        · simp [bucketOf, List.lookup, beq_eq_false_iff_ne.mpr hk0] at ih ⊢
          exact ih

theorem bucketOf_foldl_groupStep (k : String) (hk : k ≠ "") :
    ∀ (l : List ProofPayload) (acc : List (String × List ProofPayload)),
      bucketOf (l.foldl groupStep acc) k
        = bucketOf acc k ++ (l.filter fun p => p.stateHash = k) := by
  intro l
  induction l with
  | nil => intro acc; simp
  | cons p ps ih =>
      intro acc
      simp only [List.foldl_cons, ih]
      unfold groupStep
      by_cases hp : p.stateHash = ""
      · have hpk : ¬ (p.stateHash = k) := fun hh => hk (hh ▸ hp ▸ rfl)
        simp [hp, List.filter_cons, hpk]
        rw [if_neg (Ne.symm hk)]
      · simp only [if_neg hp]
        by_cases hpk : p.stateHash = k
        · subst hpk
          rw [bucketOf_addToGroups_same]
          simp [List.filter_cons]
        · rw [bucketOf_addToGroups_other _ _ (fun hh => hpk hh.symm)]
          simp [List.filter_cons, hpk]

theorem bucketOf_groupByHash (proofs : List ProofPayload) (k : String) (hk : k ≠ "") :
    bucketOf (groupByHash proofs) k = proofs.filter fun p => p.stateHash = k := by
  unfold groupByHash
  rw [bucketOf_foldl_groupStep k hk]
  simp [bucketOf, List.lookup]

theorem lookup_mem {gs : List (String × List ProofPayload)} {k : String}
    {b : List ProofPayload} (h : gs.lookup k = some b) : (k, b) ∈ gs := by
  induction gs with
  | nil => simp [List.lookup] at h
  | cons kb rest ih =>
      obtain ⟨k', b'⟩ := kb
      simp only [List.lookup] at h
      by_cases hk : k = k'
      · subst hk
        simp only [beq_self_eq_true] at h
        simp at h
        subst h
        exact (List.mem_cons_self _ _)
      · rw [beq_eq_false_iff_ne.mpr hk] at h
        simp at h
        exact List.mem_cons_of_mem _ (ih h)

theorem pickStep_acc_le (gs : List (String × List ProofPayload)) :
    ∀ acc : Option String × List ProofPayload,
      acc.2.length ≤ (gs.foldl pickStep acc).2.length := by
  induction gs with
  | nil => intro acc; simp
  | cons g rest ih =>
      intro acc
      simp only [List.foldl_cons]
      refine le_trans ?_ (ih (pickStep acc g))
      unfold pickStep
      split
      · next hlt => exact le_of_lt hlt
      · exact le_rfl

theorem pickStep_mem_le (gs : List (String × List ProofPayload)) :
    ∀ (acc : Option String × List ProofPayload) (g : String × List ProofPayload),
      g ∈ gs → g.2.length ≤ (gs.foldl pickStep acc).2.length := by
  induction gs with
  | nil => intro acc g hg; simp at hg
  | cons g0 rest ih =>
      intro acc g hg
      rcases List.mem_cons.mp hg with hg | hg
      · subst hg
        simp only [List.foldl_cons]
        refine le_trans ?_ (pickStep_acc_le rest (pickStep acc g))
        unfold pickStep
        split
        · exact le_rfl
        · next hnlt => exact Nat.le_of_not_lt hnlt
      · simp only [List.foldl_cons]
        exact ih (pickStep acc g0) g hg

theorem pickStep_result (gs : List (String × List ProofPayload)) :
    ∀ acc : Option String × List ProofPayload,
      gs.foldl pickStep acc = acc ∨ ∃ g ∈ gs, gs.foldl pickStep acc = (some g.1, g.2) := by
  induction gs with
  | nil => intro acc; left; rfl
  | cons g0 rest ih =>
      intro acc
      simp only [List.foldl_cons]
      rcases ih (pickStep acc g0) with h | ⟨g, hg, hres⟩
      · rw [h]
        unfold pickStep
        split
        · right; exact ⟨g0, List.mem_cons_self _ _, rfl⟩
        · left; rfl
      · right
        exact ⟨g, List.mem_cons_of_mem _ hg, hres⟩

theorem pickLargest_some_mem {gs : List (String × List ProofPayload)} {c : String}
    {m : List ProofPayload} (h : pickLargest gs = (some c, m)) : (c, m) ∈ gs := by
  unfold pickLargest at h
  rcases pickStep_result gs (none, []) with h0 | ⟨g, hg, hres⟩
  · rw [h0] at h
    exact absurd (congrArg Prod.fst h) (by simp)
  · rw [hres] at h
    have h1 : g.1 = c := Option.some.inj (congrArg Prod.fst h)
    have h2 : g.2 = m := congrArg Prod.snd h
    have hgm : g = (c, m) := by
      cases g
      simp_all
    rw [← hgm]
    exact hg

/-- Every same-hash subset of the bucket is at most as large as the
selected `matching` group. -/
theorem pickLargest_max (proofs : List ProofPayload) (hsh : String) (hne : hsh ≠ "") :
    (proofs.filter fun p => p.stateHash = hsh).length
      ≤ (pickLargest (groupByHash proofs)).2.length := by
  rw [← bucketOf_groupByHash proofs hsh hne]
  unfold bucketOf
  cases hl : (groupByHash proofs).lookup hsh with
  | none => simp
  | some b =>
      simp only [Option.getD_some]
      have hmem : (hsh, b) ∈ groupByHash proofs := lookup_mem hl
      exact pickStep_mem_le (groupByHash proofs) (none, []) (hsh, b) hmem

/-- Inversion of a successful aggregation: the exact shape of the emitted
entry and the conditions that were passed on the way. -/
theorem aggregateConsensus_some_elim {h : String → String} {epoch : ℚ}
    {proofs : List ProofPayload} {quorum : ℕ} {tf : String}
    {parts : Option (List String)} {r : ConsensusResult}
    (hagg : aggregateConsensus h epoch proofs quorum tf parts = some r) :
    ∃ c first rest,
      pickLargest (groupByHash proofs) = (some c, first :: rest) ∧
      quorum ≤ proofs.length ∧ quorum ≤ (first :: rest).length ∧
      recomputeStateHash h tf first = c ∧
      collectPrices (first :: rest) ≠ [] ∧
      r.proofs = first :: rest ∧
      r.entry =
        { epoch := epoch
          stateHash := recomputeStateHash h tf first
          price := roundTo8 (medianPrice (collectPrices (first :: rest)))
          timestamp := first.timestamp
          participants := sortAccountIds (participantPool parts (first :: rest))
          sources := sourcesOf (first :: rest)
          hcsMessage := first.hcsMessage
          consensusTimestamp := pickConsensusTimestamp (first :: rest) first
          sequenceNumber := pickSequenceNumber (first :: rest) first } := by
  unfold aggregateConsensus at hagg
  by_cases hq : proofs.length < quorum
  · rw [if_pos hq] at hagg
    exact absurd hagg (by simp)
  · rw [if_neg hq] at hagg
    cases hpl : pickLargest (groupByHash proofs) with
    | mk o matching =>
        rw [hpl] at hagg
        cases o with
        | none => simp at hagg
        | some c =>
            simp only at hagg
            by_cases hm : matching.length < quorum
            · rw [if_pos hm] at hagg
              simp at hagg
            · rw [if_neg hm] at hagg
              cases matching with
              | nil => simp at hagg
              | cons first rest =>
                  simp only at hagg
                  by_cases hhash : recomputeStateHash h tf first ≠ c
                  · rw [if_pos hhash] at hagg
                    simp at hagg
                  · rw [if_neg hhash] at hagg
                    by_cases hpr : (collectPrices (first :: rest)).length = 0
                    · rw [if_pos hpr] at hagg
                      simp at hagg
                    · rw [if_neg hpr] at hagg
                      have hr := Option.some.inj hagg
                      refine ⟨c, first, rest, rfl, Nat.le_of_not_lt hq,
                        Nat.le_of_not_lt hm, not_not.mp hhash, ?_, ?_, ?_⟩
                      · intro hnil
                        exact hpr (by rw [hnil]; rfl)
                      · rw [← hr]
                      · rw [← hr]

/-- Introduction direction: when the bucket passes all the gates the
aggregator does emit. -/
theorem aggregateConsensus_isSome_intro {h : String → String} {epoch : ℚ}
    {proofs : List ProofPayload} {quorum : ℕ} {tf : String}
    {parts : Option (List String)} {c : String} {first : ProofPayload}
    {rest : List ProofPayload}
    (hq : quorum ≤ proofs.length)
    (hpl : pickLargest (groupByHash proofs) = (some c, first :: rest))
    (hm : quorum ≤ (first :: rest).length)
    (hhash : recomputeStateHash h tf first = c)
    (hpr : collectPrices (first :: rest) ≠ []) :
    (aggregateConsensus h epoch proofs quorum tf parts).isSome := by
  unfold aggregateConsensus
  rw [if_neg (Nat.not_lt.mpr hq), hpl]
  simp only
  rw [if_neg (Nat.not_lt.mpr hm), if_neg (not_not.mpr hhash),
    if_neg (by simp [List.length_eq_zero, hpr])]
  simp

/-- The spec-side median of an already ascending list: middle element for
odd length, mean of the two middles for even length. -/
def middleOf (s : List ℚ) : ℚ :=
  if s.length % 2 = 1 then s.getD ((s.length - 1) / 2) 0
  else (s.getD (s.length / 2 - 1) 0 + s.getD (s.length / 2) 0) / 2

theorem medianPrice_eq_middleOf (prices : List ℚ) :
    medianPrice prices = middleOf (sortLe (fun a b => decide (a ≤ b)) prices) := by
  unfold medianPrice middleOf
  set s := sortLe (fun a b : ℚ => decide (a ≤ b)) prices with hs
  by_cases hpar : s.length % 2 = 0
  · have h1 : ¬ s.length % 2 = 1 := by omega
    simp [hpar, h1]
  · have h1 : s.length % 2 = 1 := Nat.mod_two_eq_zero_or_one s.length |>.resolve_left hpar
    have hidx : (s.length - 1) / 2 = s.length / 2 := by omega
    simp [hpar, h1, hidx]

theorem sortLe_rat_sorted (prices : List ℚ) :
    (sortLe (fun a b => decide (a ≤ b)) prices).Sorted (· ≤ ·) := by
  have hchain := chain'_sortLe (fun a b : ℚ => decide (a ≤ b))
    (fun a b => by rcases le_total a b with h | h <;> simp [h]) prices
  have hchain' : (sortLe (fun a b : ℚ => decide (a ≤ b)) prices).Chain' (· ≤ ·) := by
    exact hchain.imp fun a b hab => of_decide_eq_true hab
  exact List.chain'_iff_pairwise.mp hchain'

/-- Any ascending arrangement of the collected prices is the one the
aggregator computed. -/
theorem sorted_perm_eq_sortLe {prices s : List ℚ}
    (hperm : prices.Perm s) (hsorted : s.Sorted (· ≤ ·)) :
    s = sortLe (fun a b => decide (a ≤ b)) prices := by
  refine List.eq_of_perm_of_sorted ?_ hsorted (sortLe_rat_sorted prices)
  exact (hperm.symm).trans (sortLe_perm _ prices).symm

/-! ## List helper lemmas -/

theorem filterMap_id_length_eq {α : Type} (l : List (Option α)) :
    ((l.filterMap id).length = l.length) ↔ ∀ x ∈ l, x.isSome := by
  induction l with
  | nil => simp
  | cons x xs ih =>
      cases x with
      | none =>
          simp only [List.filterMap_cons, id]
          have hle := List.length_filterMap_le id xs
          constructor
          · intro hlen
            simp at hlen
            omega
          · intro hall
            have := hall none (List.mem_cons_self _ _)
            simp at this
      | some a =>
          simp only [List.filterMap_cons, id, List.length_cons]
          constructor
          · intro hlen
            intro x hx
            rcases List.mem_cons.mp hx with rfl | hx
            · rfl
            · exact ih.mp (by omega) x hx
          · intro hall
            have := ih.mpr fun x hx => hall x (List.mem_cons_of_mem _ hx)
            omega

/-- `finitePriceOf` succeeds exactly on a finite numeric `price` field. -/
theorem finitePriceOf_eq_some {r : AdapterRecord} {q : ℚ} :
    finitePriceOf r = some q ↔ r.payload.lookup "price" = some (Json.num (JNum.fin q)) := by
  unfold finitePriceOf
  cases hl : r.payload.lookup "price" with
  | none => simp
  | some v =>
      cases v with
      | num n =>
          cases n with
          | fin q' => simp
          | nan => simp
          | inf => simp
          | negInf => simp
      | str s => simp
      | bool b => simp
      | null => simp
      | arr xs => simp
      | obj fs => simp

/-- Membership in the median input: exactly the finite numeric `price`
payload fields of the records, everything else excluded. -/
theorem mem_collectPrices {x : ℚ} {l : List ProofPayload} :
    x ∈ collectPrices l ↔
      ∃ pr ∈ l, ∃ rec ∈ pr.records,
        rec.payload.lookup "price" = some (Json.num (JNum.fin x)) := by
  unfold collectPrices
  simp only [List.mem_flatMap, List.mem_filterMap]
  constructor
  · rintro ⟨pr, hpr, rec, hrec, hprice⟩
    exact ⟨pr, hpr, rec, hrec, finitePriceOf_eq_some.mp hprice⟩
  · rintro ⟨pr, hpr, rec, hrec, hprice⟩
    exact ⟨pr, hpr, rec, hrec, finitePriceOf_eq_some.mpr hprice⟩

/-! ## Concrete sample data for witnesses and counterexamples -/

/-- Constant digest standing in for SHA-384 in concrete instances (the
round-trip facts hold for every digest function). -/
def constHash : String → String := fun _ => "h0"

/-- A record whose payload carries the finite price `0`. -/
def sampleRecord : AdapterRecord :=
  { adapterId := "binance"
    entityId := "HBAR-USD"
    payload := [("price", Json.num (JNum.fin 0)), ("source", Json.str "binance")]
    timestamp := "t0"
    sourceFingerprint := "fp" }

/-- A structurally complete proof payload over the given records, with
state hash `h0` (the value of `constHash`). -/
def sampleProof (pid acct : String) (records : List AdapterRecord) : ProofPayload :=
  { epoch := 0
    stateHash := "h0"
    thresholdFingerprint := "tf"
    petalId := pid
    petalAccountId := acct
    petalStateTopicId := "0.0.77"
    floraAccountId := "0.0.1"
    participants := ["0.0.5"]
    records := records
    timestamp := "ts"
    adapterFingerprints := [("binance", "fpb")]
    registryTopicId := "0.0.200" }

/-- Two agreeing proofs with no records at all (hence no prices). -/
def cxProofs : List ProofPayload :=
  [sampleProof "p1" "0.0.5" [], sampleProof "p2" "0.0.6" []]

/-- Two agreeing proofs, one record with price `0` each. -/
def wpProofs : List ProofPayload :=
  [sampleProof "p1" "0.0.5" [sampleRecord], sampleProof "p2" "0.0.6" [sampleRecord]]

/-! ## Claim C1 — quorum and plurality selection in the aggregator -/

/-- C1 counterexample: a bucket of two agreeing proofs (quorum 2) whose
largest state-hash group meets the quorum and whose recomputed hash check
passes, yet no `ConsensusEntry` is emitted — the claim's "emitted if and
only if the largest group's size is at least the quorum (and the
recomputed hash check passes)" fails because no record carries a finite
numeric price. -/
theorem C1_counterexample :
    aggregateConsensus constHash 0 cxProofs 2 "tf" none = none ∧
    2 ≤ cxProofs.length ∧
    pickLargest (groupByHash cxProofs) = (some "h0", cxProofs) ∧
    recomputeStateHash constHash "tf" (sampleProof "p1" "0.0.5" []) = "h0" :=
  ⟨rfl, by decide, rfl, rfl⟩

/-- C1 (amended): below quorum nothing is emitted; the selected `matching`
group is a largest same-hash group; an entry is emitted if and only if the
bucket meets the quorum, the largest group meets the quorum, the recomputed
state hash matches the group hash, **and** at least one matching record has
a finite numeric price; an emitted entry always comes from a group of
quorum size or more that uniformly carries the entry's state hash. -/
theorem C1_quorum_plurality (h : String → String) (epoch : ℚ)
    (proofs : List ProofPayload) (quorum : ℕ) (tf : String)
    (parts : Option (List String)) :
    (proofs.length < quorum → aggregateConsensus h epoch proofs quorum tf parts = none) ∧
    (∀ hsh, hsh ≠ "" →
      (proofs.filter fun p => p.stateHash = hsh).length
        ≤ (pickLargest (groupByHash proofs)).2.length) ∧
    ((aggregateConsensus h epoch proofs quorum tf parts).isSome ↔
      quorum ≤ proofs.length ∧
      ∃ c first rest,
        pickLargest (groupByHash proofs) = (some c, first :: rest) ∧
        quorum ≤ (first :: rest).length ∧
        recomputeStateHash h tf first = c ∧
        collectPrices (first :: rest) ≠ []) ∧
    (∀ r, aggregateConsensus h epoch proofs quorum tf parts = some r →
      quorum ≤ r.proofs.length ∧
      (∀ p ∈ r.proofs, p.stateHash = r.entry.stateHash) ∧
      ∀ hsh, hsh ≠ "" →
        (proofs.filter fun p => p.stateHash = hsh).length ≤ r.proofs.length) := by
  refine ⟨?_, ?_, ⟨?_, ?_⟩, ?_⟩
  · intro hlt
    unfold aggregateConsensus
    rw [if_pos hlt]
  · intro hsh hne
    exact pickLargest_max proofs hsh hne
  · intro hsome
    obtain ⟨r, hr⟩ := Option.isSome_iff_exists.mp hsome
    obtain ⟨c, first, rest, hpl, hq, hm, hhash, hpr, _, _⟩ :=
      aggregateConsensus_some_elim hr
    exact ⟨hq, c, first, rest, hpl, hm, hhash, hpr⟩
  · rintro ⟨hq, c, first, rest, hpl, hm, hhash, hpr⟩
    exact aggregateConsensus_isSome_intro hq hpl hm hhash hpr
  · intro r hr
    obtain ⟨c, first, rest, hpl, hq, hm, hhash, hpr, hrp, hre⟩ :=
      aggregateConsensus_some_elim hr
    have hmem : (c, first :: rest) ∈ groupByHash proofs := pickLargest_some_mem hpl
    have hgood := groupByHash_good proofs (c, first :: rest) hmem
    refine ⟨by rw [hrp]; exact hm, ?_, ?_⟩
    · intro p hp
      rw [hrp] at hp
      have := hgood.2.2 p hp
      rw [hre]
      simp only
      rw [hhash]
      exact this
    · intro hsh hne
      have := pickLargest_max proofs hsh hne
      rw [hpl] at this
      rw [hrp]
      exact this

/-- C1 witness: the amended theorem applied at a concrete bucket of two
proofs with quorum 3 (below quorum) and at a concrete hash. -/
theorem C1_quorum_plurality_witness :
    aggregateConsensus constHash 0 cxProofs 3 "tf" none = none ∧
    (cxProofs.filter fun p => p.stateHash = "h0").length
      ≤ (pickLargest (groupByHash cxProofs)).2.length :=
  ⟨(C1_quorum_plurality constHash 0 cxProofs 3 "tf" none).1 (by decide),
   (C1_quorum_plurality constHash 0 cxProofs 3 "tf" none).2.1 "h0" (by decide)⟩

/-! ## Claim C3 — median price -/

/-- C3: for every emitted entry, the price is the 8-decimal rounding of
the standard median of the finite record prices collected from the
matching proofs — stated against any ascending arrangement `s` of that
multiset (middle element for odd length, mean of the two middles for even
length). -/
theorem C3_median_price (h : String → String) (epoch : ℚ)
    (proofs : List ProofPayload) (quorum : ℕ) (tf : String)
    (parts : Option (List String)) (r : ConsensusResult)
    (hagg : aggregateConsensus h epoch proofs quorum tf parts = some r)
    (s : List ℚ) (hperm : (collectPrices r.proofs).Perm s)
    (hsorted : s.Sorted (· ≤ ·)) :
    r.entry.price = roundTo8 (middleOf s) := by
  obtain ⟨c, first, rest, hpl, hq, hm, hhash, hpr, hrp, hre⟩ :=
    aggregateConsensus_some_elim hagg
  rw [hrp] at hperm
  rw [hre]
  simp only
  rw [medianPrice_eq_middleOf, sorted_perm_eq_sortLe hperm hsorted]

/-- C3 witness: a concrete two-proof bucket with prices `[0, 0]`. -/
theorem C3_median_price_witness :
    ((aggregateConsensus constHash 0 wpProofs 2 "tf" none).map fun r => r.entry.price)
      = some (roundTo8 (middleOf [0, 0])) := by
  cases hagg : aggregateConsensus constHash 0 wpProofs 2 "tf" none with
  | none =>
      have hsome : (aggregateConsensus constHash 0 wpProofs 2 "tf" none).isSome = true := rfl
      rw [hagg] at hsome
      simp at hsome
  | some r =>
      have hproofs : (aggregateConsensus constHash 0 wpProofs 2 "tf" none).map
          (fun r => r.proofs) = some wpProofs := rfl
      rw [hagg] at hproofs
      have hrp : r.proofs = wpProofs := Option.some.inj hproofs
      have hperm : (collectPrices r.proofs).Perm [0, 0] := by
        rw [hrp]
        have hcp : collectPrices wpProofs = [0, 0] := rfl
        rw [hcp]
      have hsorted : ([0, 0] : List ℚ).Sorted (· ≤ ·) := by
        simp [List.sorted_cons]
      exact congrArg some
        (C3_median_price constHash 0 wpProofs 2 "tf" none r hagg [0, 0] hperm hsorted)

/-! ## Claim C9 — participant computation -/

/-- C9: the emitted participants list equals `sortAccountIds` of the
preference pool (bootstrap ids when non-empty, else the well-formed
dotted account ids of the matching proofs' participants, else each
matching proof's `petalAccountId`), and it is deduplicated, made of
trimmed non-empty strings, and ascending for `compareAccountIds`
(dotted-integer component order with lexical tie-break). -/
theorem C9_participants (h : String → String) (epoch : ℚ)
    (proofs : List ProofPayload) (quorum : ℕ) (tf : String)
    (parts : Option (List String)) (r : ConsensusResult)
    (hagg : aggregateConsensus h epoch proofs quorum tf parts = some r) :
    r.entry.participants = sortAccountIds (participantPool parts r.proofs) ∧
    r.entry.participants.Chain' (fun a b => compareAccountIds a b ≠ Ordering.gt) ∧
    r.entry.participants.Nodup ∧
    (∀ x ∈ r.entry.participants,
      x ≠ "" ∧ ∃ y ∈ participantPool parts r.proofs, jsTrim y = x) := by
  obtain ⟨c, first, rest, hpl, hq, hm, hhash, hpr, hrp, hre⟩ :=
    aggregateConsensus_some_elim hagg
  have hpart : r.entry.participants = sortAccountIds (participantPool parts r.proofs) := by
    rw [hre, hrp]
  refine ⟨hpart, ?_, ?_, ?_⟩
  · rw [hpart]
    have := sortAccountIds_chain (participantPool parts r.proofs)
    exact this.imp fun a b hab => by
      intro hgt
      unfold accLe at hab
      rw [hgt] at hab
      exact absurd hab (by decide)
  · rw [hpart]
    exact sortAccountIds_nodup _
  · intro x hx
    rw [hpart] at hx
    obtain ⟨⟨y, hy, hyx⟩, hne⟩ := mem_sortAccountIds.mp hx
    exact ⟨hne, y, hy, hyx⟩

/-- C9 witness: applied at the concrete two-proof bucket. -/
theorem C9_participants_witness :
    ((aggregateConsensus constHash 0 wpProofs 2 "tf" none).map fun r => r.entry.participants)
      = some (sortAccountIds (participantPool none wpProofs)) := by
  cases hagg : aggregateConsensus constHash 0 wpProofs 2 "tf" none with
  | none =>
      have hsome : (aggregateConsensus constHash 0 wpProofs 2 "tf" none).isSome = true := rfl
      rw [hagg] at hsome
      simp at hsome
  | some r =>
      have hproofs : (aggregateConsensus constHash 0 wpProofs 2 "tf" none).map
          (fun r => r.proofs) = some wpProofs := rfl
      rw [hagg] at hproofs
      have hrp : r.proofs = wpProofs := Option.some.inj hproofs
      have h1 := (C9_participants constHash 0 wpProofs 2 "tf" none r hagg).1
      rw [hrp] at h1
      exact congrArg some h1

/-! ## Claim C10 — no finite price, no entry -/

/-- C10: even when the bucket meets the quorum, the largest group meets
the quorum and the recomputed hash matches, the aggregator returns null
whenever no matching record carries a finite numeric price; and the
median input contains exactly the finite numeric `price` fields —
non-numeric and non-finite prices are excluded. -/
theorem C10_empty_prices_null (h : String → String) (epoch : ℚ)
    (proofs : List ProofPayload) (quorum : ℕ) (tf : String)
    (parts : Option (List String)) (c : String) (first : ProofPayload)
    (rest : List ProofPayload) :
    (quorum ≤ proofs.length →
      pickLargest (groupByHash proofs) = (some c, first :: rest) →
      quorum ≤ (first :: rest).length →
      recomputeStateHash h tf first = c →
      collectPrices (first :: rest) = [] →
      aggregateConsensus h epoch proofs quorum tf parts = none) ∧
    (∀ (x : ℚ) (l : List ProofPayload), x ∈ collectPrices l ↔
      ∃ pr ∈ l, ∃ rec ∈ pr.records,
        rec.payload.lookup "price" = some (Json.num (JNum.fin x))) := by
  constructor
  · intro hq hpl hm hhash hempty
    cases hnone : aggregateConsensus h epoch proofs quorum tf parts with
    | none => rfl
    | some r =>
        obtain ⟨c', first', rest', hpl', _, _, _, hpr', hrp', _⟩ :=
          aggregateConsensus_some_elim hnone
        rw [hpl] at hpl'
        have h2 : first :: rest = first' :: rest' := congrArg Prod.snd hpl'
        rw [← h2] at hpr'
        exact absurd hempty hpr'
  · intro x l
    exact mem_collectPrices

/-- C10 witness: the hypotheses hold at the concrete price-less bucket
and the aggregator indeed returns null there. -/
theorem C10_empty_prices_null_witness :
    aggregateConsensus constHash 0 cxProofs 2 "tf" none = none ∧
    ((0 : ℚ) ∈ collectPrices wpProofs ↔
      ∃ pr ∈ wpProofs, ∃ rec ∈ pr.records,
        rec.payload.lookup "price" = some (Json.num (JNum.fin 0))) :=
  ⟨(C10_empty_prices_null constHash 0 cxProofs 2 "tf" none "h0"
      (sampleProof "p1" "0.0.5" []) [sampleProof "p2" "0.0.6" []]).1
      (by decide) rfl (by decide) rfl rfl,
   (C10_empty_prices_null constHash 0 wpProofs 2 "tf" none "h0"
      (sampleProof "p1" "0.0.5" [sampleRecord]) []).2 0 wpProofs⟩

/-! ## Claim C4 — leader rotation -/

/-- C4: the elected leader is `sorted(P)[|e| mod |sorted(P)|]` where
`sorted(P)` is the trimmed, deduplicated list ascending for
`compareAccountIds` (dotted-integer component order, lexical tie-break);
an empty or all-blank list elects no leader.  Negative epochs use the
absolute value. -/
theorem C4_leader_rotation (epoch : ℤ) (accountIds : List String) :
    selectRoundLeader epoch accountIds
      = (sortAccountIds accountIds)[epoch.natAbs % (sortAccountIds accountIds).length]? ∧
    (selectRoundLeader epoch accountIds = none ↔ sortAccountIds accountIds = []) ∧
    (sortAccountIds accountIds).Chain' (fun a b => compareAccountIds a b ≠ Ordering.gt) ∧
    (sortAccountIds accountIds).Nodup ∧
    (∀ x ∈ sortAccountIds accountIds, x ≠ "" ∧ ∃ y ∈ accountIds, jsTrim y = x) ∧
    (∀ y ∈ accountIds, jsTrim y ≠ "" → jsTrim y ∈ sortAccountIds accountIds) := by
  refine ⟨selectRoundLeader_eq epoch accountIds, ?_, ?_, sortAccountIds_nodup _, ?_, ?_⟩
  · unfold selectRoundLeader
    by_cases hlen : (sortAccountIds accountIds).length = 0
    · simp [hlen, List.length_eq_zero.mp hlen]
    · simp only [dif_neg hlen]
      constructor
      · intro hh
        exact absurd hh (by simp)
      · intro hh
        exact absurd (congrArg List.length hh) (by simp [hlen])
  · have := sortAccountIds_chain accountIds
    exact this.imp fun a b hab => by
      intro hgt
      unfold accLe at hab
      rw [hgt] at hab
      exact absurd hab (by decide)
  · intro x hx
    obtain ⟨⟨y, hy, hyx⟩, hne⟩ := mem_sortAccountIds.mp hx
    exact ⟨hne, y, hy, hyx⟩
  · intro y hy hne
    exact mem_sortAccountIds.mpr ⟨⟨y, hy, rfl⟩, hne⟩

/-- C4 witness: a negative epoch, a duplicate and an untrimmed id;
`0.0.2` sorts before `0.0.11` (integer components, not lexical), and
epoch `-5` elects index `5 mod 2 = 1`. -/
theorem C4_leader_rotation_witness :
    selectRoundLeader (-5) ["0.0.11", " 0.0.2 ", "0.0.11"] = some "0.0.11" ∧
    jsTrim " 0.0.2 " ≠ "" ∧
    jsTrim " 0.0.2 " ∈ sortAccountIds ["0.0.11", " 0.0.2 ", "0.0.11"] := by
  have h := C4_leader_rotation (-5) ["0.0.11", " 0.0.2 ", "0.0.11"]
  refine ⟨?_, by decide, ?_⟩
  · rw [h.1]
    decide
  · exact h.2.2.2.2.2 " 0.0.2 " (by decide) (by decide)

/-! ## Claim C2 — hash fixpoint and builder/verifier round trip -/

/-- C2: the builder's `stateHash` is the digest of the canonicalized
object `{records: records sorted by (adapterId, entityId) with timestamps
rewritten to the epoch timestamp, thresholdFingerprint,
adapterFingerprints, registryTopicId}` (stated with the rewrite applied
before sorting, as the spec words it; the source sorts first), and the
aggregator's recomputation from the emitted payload reproduces the
payload's `stateHash` — for every digest function `h`. -/
theorem C2_hash_fixpoint_roundtrip (h : String → String) (records : List AdapterRecord)
    (epoch : ℤ) (config : PetalConfig) (af : List (String × String)) :
    (buildProof h records epoch config af).stateHash
      = h (canonicalize (stateObjectJson
          (sortLe recordLe (records.map fun r =>
            { r with timestamp := isoTimestamp (config.epochOriginMs + epoch * config.blockTimeMs) }))
          config.floraThresholdFingerprint af config.registryTopicId)) ∧
    recomputeStateHash h config.floraThresholdFingerprint (buildProof h records epoch config af)
      = (buildProof h records epoch config af).stateHash := by
  have hmap := sortLe_map recordLe recordLe
    (fun r => { r with timestamp := isoTimestamp (config.epochOriginMs + epoch * config.blockTimeMs) })
    (fun a b => rfl) records
  constructor
  · unfold buildProof
    simp only
    rw [hmap]
  · unfold recomputeStateHash normalizeRecords buildProof
    simp only
    have hchain : ((sortLe recordLe records).map fun r =>
        { r with timestamp := isoTimestamp (config.epochOriginMs + epoch * config.blockTimeMs) }).Chain'
        (recordLe · · = true) := by
      rw [List.chain'_map]
      exact chain'_sortLe recordLe recordLe_total records
    rw [sortLe_eq_self recordLe hchain]

/-! ## Claim C7 — state-topic write failure and the consumer POST -/

/-- The petal configuration used in concrete epoch-loop instances. -/
def sampleConfig : PetalConfig :=
  { petalId := "p1"
    accountId := "0.0.5"
    floraAccountId := "0.0.1"
    participants := ["0.0.5"]
    floraThresholdFingerprint := "tf"
    blockTimeMs := 2000
    epochOriginMs := 0
    publishStateTopic := true
    petalStateTopicId := "0.0.77"
    registryTopicId := "0.0.200" }

/-- C7 counterexample: with `publishStateTopic` enabled and every adapter
fulfilled, the proof builds (the submit outcome `ok` yields it), yet when
the state-topic submission rejects, `runEpoch` rejects as a whole — the
`.catch` handler logs and the POST to the Consumer `/proof` endpoint never
runs.  The claim says the failure "does not prevent the built ProofPayload
from being POSTed". -/
theorem C7_counterexample :
    runEpoch constHash [some sampleRecord] 0 sampleConfig [("binance", "fpb")] SubmitOutcome.ok
      = Except.ok (some (buildProof constHash [sampleRecord] 0 sampleConfig [("binance", "fpb")])) ∧
    executeEpochPosts constHash [some sampleRecord] 0 sampleConfig [("binance", "fpb")]
      SubmitOutcome.err = false :=
  ⟨rfl, rfl⟩

/-- C7 (amended): the proof is POSTed to the Consumer exactly when every
adapter fulfilled (non-empty, no partial set) **and** either the
state-topic publication is disabled or the awaited submission resolves; a
rejected submission aborts the epoch (the error is only logged) and the
built proof is not POSTed. -/
theorem C7_submit_failure_blocks_post (h : String → String)
    (results : List (Option AdapterRecord)) (epoch : ℤ) (config : PetalConfig)
    (af : List (String × String)) (submit : SubmitOutcome) :
    executeEpochPosts h results epoch config af submit = true ↔
      (results ≠ [] ∧ (∀ x ∈ results, x.isSome) ∧
        (config.publishStateTopic = false ∨ submit = SubmitOutcome.ok)) := by
  unfold executeEpochPosts runEpoch
  by_cases hz : (results.filterMap id).length = 0
  · rw [if_pos hz]
    simp only [Bool.false_eq_true, false_iff]
    rintro ⟨hne, hall, _⟩
    have hlen := (filterMap_id_length_eq results).mpr hall
    rw [hlen] at hz
    exact hne (List.length_eq_zero.mp hz)
  · rw [if_neg hz]
    by_cases hlt : (results.filterMap id).length < results.length
    · rw [if_pos hlt]
      simp only [Bool.false_eq_true, false_iff]
      rintro ⟨hne, hall, _⟩
      have hlen := (filterMap_id_length_eq results).mpr hall
      omega
    · rw [if_neg hlt]
      have hall : ∀ x ∈ results, x.isSome := by
        apply (filterMap_id_length_eq results).mp
        have hle := List.length_filterMap_le id results
        omega
      have hne : results ≠ [] := by
        intro hnil
        rw [hnil] at hz
        exact hz rfl
      by_cases hflag : config.publishStateTopic
      · rw [if_pos hflag]
        cases submit with
        | ok =>
            constructor
            · intro _
              exact ⟨hne, hall, Or.inr rfl⟩
            · intro _
              rfl
        | err =>
            simp only [Bool.false_eq_true, false_iff]
            rintro ⟨_, _, hok | hok⟩
            · exact absurd hok (by simp [hflag])
            · exact SubmitOutcome.noConfusion hok
      · rw [if_neg hflag]
        constructor
        · intro _
          exact ⟨hne, hall, Or.inl (Bool.eq_false_iff.mpr hflag)⟩
        · intro _
          rfl

/-- C7 witness: the amended equivalence applied at a concrete epoch where
everything succeeds, concluding that the POST happens. -/
theorem C7_submit_failure_blocks_post_witness :
    executeEpochPosts constHash [some sampleRecord] 0 sampleConfig [("binance", "fpb")]
      SubmitOutcome.ok = true :=
  (C7_submit_failure_blocks_post constHash [some sampleRecord] 0 sampleConfig
      [("binance", "fpb")] SubmitOutcome.ok).mpr
    ⟨List.cons_ne_nil _ _,
     by
      intro x hx
      rcases List.mem_singleton.mp hx with rfl
      rfl,
     Or.inr rfl⟩

/-! ## Claims C5, C6, C8 — the consumer intake -/

/-- The consumer configuration used in concrete intake instances: no
bootstrap accounts, one expected petal, quorum 2. -/
def sampleServerConfig : ConsumerConfig :=
  { quorum := 2
    expectedPetals := 1
    thresholdFingerprint := "tf"
    petalAccountsById := none
    floraAccountId := "0.0.1"
    stateTopicId := "0.0.100"
    adapterCategoryTopicId := "0.0.200" }

/-- A structurally valid whole payload whose `floraAccountId` is wrong. -/
def badFloraProof : ProofPayload :=
  { sampleProof "p1" "0.0.5" [] with floraAccountId := "0.0.999" }

/-- A structurally valid payload whose `thresholdFingerprint` differs
from the configured one. -/
def evilProof : ProofPayload :=
  { sampleProof "p1" "0.0.5" [] with thresholdFingerprint := "evil" }

/-- C5 counterexample: POST `/proof` with a wrong `floraAccountId` does
answer 400, but the petalId → petalStateTopicId binding map *is* mutated:
the unknown petal's state topic is recorded before the flora-account
check runs. -/
theorem C5_counterexample :
    (postProofWhole constHash sampleServerConfig {} badFloraProof).1.status = 400 ∧
    (postProofWhole constHash sampleServerConfig {} badFloraProof).2.petalStateTopicsById
      = [("p1", "0.0.77")] ∧
    ({} : ServerState).petalStateTopicsById = [] :=
  ⟨rfl, rfl, rfl⟩

/-- C5 (amended): POST `/proof` with a structurally valid whole payload
whose `floraAccountId` differs from the configured one answers 400, and
the epoch bucket, the per-petal adapter map and the history are
unchanged; the petalId → petalStateTopicId binding map is either
unchanged or extended with the first-seen binding of the payload's petal
(which happens before the flora-account check). -/
theorem C5_reject_wrong_flora (h : String → String) (config : ConsumerConfig)
    (st : ServerState) (payload : ProofPayload)
    (hflora : payload.floraAccountId ≠ config.floraAccountId) :
    (postProofWhole h config st payload).1.status = 400 ∧
    (postProofWhole h config st payload).2.proofsByEpoch = st.proofsByEpoch ∧
    (postProofWhole h config st payload).2.petalAdapters = st.petalAdapters ∧
    (postProofWhole h config st payload).2.history = st.history ∧
    ((postProofWhole h config st payload).2.petalStateTopicsById = st.petalStateTopicsById ∨
      ((alGet st.petalStateTopicsById payload.petalId).getD "" = "" ∧
        (postProofWhole h config st payload).2.petalStateTopicsById
          = alSet st.petalStateTopicsById payload.petalId payload.petalStateTopicId)) := by
  unfold postProofWhole
  by_cases h1 : ((config.petalAccountsById.getD []).lookup payload.petalId).getD "" ≠ ""
      ∧ payload.petalAccountId ≠ ((config.petalAccountsById.getD []).lookup payload.petalId).getD ""
  · rw [if_pos h1]
    exact ⟨rfl, rfl, rfl, rfl, Or.inl rfl⟩
  · rw [if_neg h1]
    by_cases h2 : ¬ hasExpectedParticipants config payload.participants = true
    · rw [if_pos h2]
      exact ⟨rfl, rfl, rfl, rfl, Or.inl rfl⟩
    · rw [if_neg h2]
      by_cases h3 : (alGet st.petalStateTopicsById payload.petalId).getD "" ≠ ""
          ∧ payload.petalStateTopicId ≠ (alGet st.petalStateTopicsById payload.petalId).getD ""
      · rw [if_pos h3]
        exact ⟨rfl, rfl, rfl, rfl, Or.inl rfl⟩
      · rw [if_neg h3]
        have hpol : ∀ st1 : ServerState, postProofPolicyChecks h config st1 payload
            = (⟨400, "Invalid flora account"⟩, st1) := by
          intro st1
          unfold postProofPolicyChecks
          rw [if_pos hflora]
        rw [hpol]
        by_cases h4 : (alGet st.petalStateTopicsById payload.petalId).getD "" = ""
        · rw [if_pos h4]
          exact ⟨rfl, rfl, rfl, rfl, Or.inr ⟨h4, rfl⟩⟩
        · rw [if_neg h4]
          exact ⟨rfl, rfl, rfl, rfl, Or.inl rfl⟩

/-- C5 witness: the amended statement applied at the concrete rejected
request. -/
theorem C5_reject_wrong_flora_witness :
    (postProofWhole constHash sampleServerConfig {} badFloraProof).1.status = 400 ∧
    (postProofWhole constHash sampleServerConfig {} badFloraProof).2.history
      = ({} : ServerState).history :=
  ⟨(C5_reject_wrong_flora constHash sampleServerConfig {} badFloraProof (by decide)).1,
   (C5_reject_wrong_flora constHash sampleServerConfig {} badFloraProof (by decide)).2.2.2.1⟩

/-- The policy checks of the POST tail only pass on matching values. -/
theorem postProofPolicyChecks_ok {h : String → String} {config : ConsumerConfig}
    {st1 : ServerState} {payload : ProofPayload}
    (hok : (postProofPolicyChecks h config st1 payload).1.status = 200) :
    payload.floraAccountId = config.floraAccountId ∧
    payload.thresholdFingerprint = config.thresholdFingerprint ∧
    payload.registryTopicId = config.adapterCategoryTopicId := by
  unfold postProofPolicyChecks at hok
  by_cases hf : payload.floraAccountId ≠ config.floraAccountId
  · rw [if_pos hf] at hok
    exact absurd hok (by simp)
  · rw [if_neg hf] at hok
    by_cases ht : payload.thresholdFingerprint ≠ config.thresholdFingerprint
    · rw [if_pos ht] at hok
      exact absurd hok (by simp)
    · rw [if_neg ht] at hok
      by_cases hr : payload.registryTopicId ≠ config.adapterCategoryTopicId
      · rw [if_pos hr] at hok
        exact absurd hok (by simp)
      · exact ⟨not_not.mp hf, not_not.mp ht, not_not.mp hr⟩

/-- C6 counterexample: a structurally valid proof with a threshold
fingerprint different from the configured one, fed through the log
tailer's path, lands in the epoch bucket — the intake validation predicate
is not enforced on that path. -/
theorem C6_counterexample :
    ((alGetQ (tailerIngest constHash sampleServerConfig {} evilProof "t1" 1).proofsByEpoch
        0).getD []).map (fun p => p.thresholdFingerprint) = ["evil"] ∧
    sampleServerConfig.thresholdFingerprint = "tf" ∧ ("evil" : String) ≠ "tf" :=
  ⟨rfl, rfl, by decide⟩

/-- C6 (amended): a whole `ProofPayload` accepted over HTTP (`POST
/proof` answered 200) satisfies the full intake validation predicate —
flora account, threshold fingerprint, registry topic, expected
participants, and the known petal-account and petal-state-topic bindings;
payloads entering via the log tailer or via chunk reassembly receive only
the structural check, not this predicate. -/
theorem C6_http_whole_validated (h : String → String) (config : ConsumerConfig)
    (st : ServerState) (payload : ProofPayload)
    (hok : (postProofWhole h config st payload).1.status = 200) :
    payload.floraAccountId = config.floraAccountId ∧
    payload.thresholdFingerprint = config.thresholdFingerprint ∧
    payload.registryTopicId = config.adapterCategoryTopicId ∧
    hasExpectedParticipants config payload.participants = true ∧
    (((config.petalAccountsById.getD []).lookup payload.petalId).getD "" ≠ "" →
      payload.petalAccountId
        = ((config.petalAccountsById.getD []).lookup payload.petalId).getD "") ∧
    ((alGet st.petalStateTopicsById payload.petalId).getD "" ≠ "" →
      payload.petalStateTopicId
        = (alGet st.petalStateTopicsById payload.petalId).getD "") := by
  unfold postProofWhole at hok
  by_cases h1 : ((config.petalAccountsById.getD []).lookup payload.petalId).getD "" ≠ ""
      ∧ payload.petalAccountId
          ≠ ((config.petalAccountsById.getD []).lookup payload.petalId).getD ""
  · rw [if_pos h1] at hok
    exact absurd hok (by simp)
  · rw [if_neg h1] at hok
    by_cases h2 : ¬ hasExpectedParticipants config payload.participants = true
    · rw [if_pos h2] at hok
      exact absurd hok (by simp)
    · rw [if_neg h2] at hok
      by_cases h3 : (alGet st.petalStateTopicsById payload.petalId).getD "" ≠ ""
          ∧ payload.petalStateTopicId ≠ (alGet st.petalStateTopicsById payload.petalId).getD ""
      · rw [if_pos h3] at hok
        exact absurd hok (by simp)
      · rw [if_neg h3] at hok
        obtain ⟨hf, ht, hr⟩ := postProofPolicyChecks_ok hok
        refine ⟨hf, ht, hr, not_not.mp h2, ?_, ?_⟩
        · intro hacct
          by_contra hne
          exact h1 ⟨hacct, hne⟩
        · intro htopic
          by_contra hne
          exact h3 ⟨htopic, hne⟩

/-- C6 witness: a matching request is accepted and indeed satisfies the
predicate. -/
theorem C6_http_whole_validated_witness :
    (postProofWhole constHash sampleServerConfig {} (sampleProof "p1" "0.0.5" [])).1.status
      = 200 ∧
    (sampleProof "p1" "0.0.5" []).thresholdFingerprint
      = sampleServerConfig.thresholdFingerprint :=
  ⟨rfl,
   (C6_http_whole_validated constHash sampleServerConfig {}
      (sampleProof "p1" "0.0.5" []) rfl).2.1⟩

/-- Quorum-3 variant of the sample configuration, so that two proofs do
not yet consolidate. -/
def sampleServerConfig3 : ConsumerConfig :=
  { sampleServerConfig with quorum := 3 }

/-- C8 counterexample: ingesting the very same assembled payload twice
leaves two copies in the epoch bucket — the intake does not deduplicate
per `(petalId, epoch)`. -/
theorem C8_counterexample :
    ((alGetQ (ingestWhole constHash sampleServerConfig3
        (ingestWhole constHash sampleServerConfig3 {} (sampleProof "p1" "0.0.5" []))
        (sampleProof "p1" "0.0.5" [])).proofsByEpoch 0).getD []).map
      (fun q => (q.petalId, q.epoch)) = [("p1", (0 : ℚ)), ("p1", (0 : ℚ))] :=
  rfl

/-- The per-entry key whose uniqueness the history maintains. -/
def historyKeysNodup (st : ServerState) : Prop :=
  (st.history.map fun e => (e.epoch, e.stateHash)).Nodup

/-- One ingestion preserves the `(epoch, stateHash)` uniqueness of the
history: a consensus entry is appended only when no entry with the same
epoch and state hash exists, and the epoch re-sort is a permutation. -/
theorem historyPush_keysNodup (history : List ConsensusEntry) (entry : ConsensusEntry)
    (hinv : (history.map fun e => (e.epoch, e.stateHash)).Nodup) :
    ((historyPush history entry).map fun e => (e.epoch, e.stateHash)).Nodup := by
  unfold historyPush
  split
  · exact hinv
  · next hnot =>
      have hperm : (sortLe entryEpochLe (history ++ [entry])).Perm
          (history ++ [entry]) := sortLe_perm _ _
      refine ((hperm.map _).nodup_iff).mpr ?_
      rw [List.map_append]
      refine List.Nodup.append hinv (by simp) ?_
      intro a ha hb
      simp only [List.map_cons, List.map_nil, List.mem_singleton] at hb
      subst hb
      obtain ⟨item, hitem, hkey⟩ := List.mem_map.mp ha
      apply hnot
      rw [List.any_eq_true]
      refine ⟨item, hitem, ?_⟩
      have h1 : item.epoch = entry.epoch := congrArg Prod.fst hkey
      have h2 : item.stateHash = entry.stateHash := congrArg Prod.snd hkey
      simp [h1, h2]

theorem ingestWhole_historyKeysNodup (h : String → String) (config : ConsumerConfig)
    (st : ServerState) (proof : ProofPayload) (hinv : historyKeysNodup st) :
    historyKeysNodup (ingestWhole h config st proof) := by
  unfold ingestWhole
  dsimp only
  split
  · exact hinv
  · exact historyPush_keysNodup st.history _ hinv

/-- C8 (amended): duplicates accumulate in the epoch bucket, but for
every sequence of assembled payloads ingested in any order, the history
never holds two entries with the same `(epoch, stateHash)` — submitting
the same proof N times yields at most one history entry. -/
theorem C8_history_unique (h : String → String) (config : ConsumerConfig)
    (ops : List ProofPayload) (st : ServerState) (hinv : historyKeysNodup st) :
    historyKeysNodup (ops.foldl (fun s p => ingestWhole h config s p) st) := by
  induction ops generalizing st with
  | nil => exact hinv
  | cons p ps ih =>
      exact ih (ingestWhole h config st p)
        (ingestWhole_historyKeysNodup h config st p hinv)

/-- C8 witness: the uniqueness invariant applied to a concrete duplicate
submission starting from the empty state. -/
theorem C8_history_unique_witness :
    historyKeysNodup (([sampleProof "p1" "0.0.5" [], sampleProof "p1" "0.0.5" []]).foldl
      (fun s p => ingestWhole constHash sampleServerConfig3 s p) {}) :=
  C8_history_unique constHash sampleServerConfig3
    [sampleProof "p1" "0.0.5" [], sampleProof "p1" "0.0.5" []] {}
    (by simp [historyKeysNodup])

end Flora
